import Mathlib

/-! # generate-car: a verification development

Shallow embedding of `cmd/generate-car/generate-car.go` and `util/qiniu.go`.

* Bytes are natural numbers, byte strings are lists of them.
* Go `error` values are the type `Err`; a Go function returning `(T, error)` becomes a
  function into `Except Err T`, a function returning only `error` one into `Option Err`.
* Library and operating-system calls whose outcome is not a function of the program's own
  data (`os.Open`, `json.Unmarshal`, `os.Stat`, ...) are fields of a record of oracles that
  every definition takes as its first argument.
-/

namespace GenerateCar

/-- A byte string. -/
abbrev Bytes := List Nat

/-- Go `error` values: the sentinels the embedded library code compares against, and every
other error, carried by its message. -/
inductive Err where
  | EOF
  | ErrShortWrite
  | SkipDir
  | SkipAll
  | other (msg : String)
  deriving DecidableEq

/-- Modelled from the spec: `util.Finfo`, whose declaration is not among the sources; the
fields are the four that `getInputList` assigns (`Path`, `Size`, `Start`, `End`), the last three
of Go type `int64`. -/
structure Finfo where
  Path : String
  Size : Int
  Start : Int
  End : Int
  deriving DecidableEq

/-- The manifest type `type Input []util.Finfo`. -/
abbrev Input := List Finfo

/-! ## Reading the input: `getInputList` -/

/-- An opened file as `bufio.Reader` sees it: the bytes still to be read and the error the
underlying reader reports once they are exhausted (`io.EOF` for a file read to its end). -/
structure Stream where
  data : Bytes
  endErr : Err
  deriving DecidableEq

/-- The part of `bufio.Reader.ReadBytes(delim)` that scans the pending bytes: the bytes up to
and including the first `delim`, the bytes left after it, and whether `delim` was found. When it
was not found all pending bytes are returned. -/
def scanDelim (delim : Nat) : Bytes → Bytes × Bytes × Bool
  | [] => ([], [], false)
  | b :: bs =>
    if b = delim then ([b], bs, true)
    else
      let r := scanDelim delim bs
      (b :: r.1, r.2.1, r.2.2)

/-- The call `r.ReadBytes(delim)`: "reads until the first occurrence of delim, returning a slice
containing the data up to and including the delimiter; if it encounters an error before finding
a delimiter, it returns the data read before the error and the error itself". The result is the
line, the error, and the reader afterwards. -/
def ReadBytes (r : Stream) (delim : Nat) : Bytes × Option Err × Stream :=
  let s := scanDelim delim r.data
  if s.2.2 then (s.1, none, { r with data := s.2.1 })
  else (s.1, some r.endErr, { r with data := [] })

/-- What `os.Stat` and `os.Lstat` report about a path: `IsDir()`, `Mode().IsRegular()` and
`Size()`, which is a length in bytes and so a natural number (an `int64` in Go). -/
structure FileInfo where
  IsDir : Bool
  IsRegular : Bool
  Size : Nat
  deriving DecidableEq

/-- A file tree as `filepath.Walk` sees it through `os.Lstat` and `readDirNames`.

* `file regular size`: an entry that is not a directory; `regular` is false for a symbolic link
  (which `Walk` does not follow), a device, a socket or a named pipe;
* `dir readErr kids`: a directory, the error of reading its names if any, and its entries in
  the lexical order `readDirNames` sorts them into;
* `broken msg`: an entry whose `Lstat` fails. -/
inductive Entry where
  | file (regular : Bool) (size : Nat)
  | dir (readErr : Option String) (kids : List (String × Entry))
  | broken (msg : String)

/-- The oracles `getInputList` consults. -/
structure InputWorld where
  /-- The call `os.Open(name)` followed by wrapping in a `bufio.Reader`. -/
  openFile : String → Except Err Stream
  /-- The call `json.Unmarshal(bytes, &input)` on a fresh `input`. -/
  unmarshal : Bytes → Except Err Input
  /-- The call `os.Stat(name)`, which follows symbolic links. -/
  stat : String → Except Err FileInfo
  /-- The tree `filepath.Walk(root, _)` traverses. -/
  tree : String → Entry
  /-- The function `filepath.Join`. -/
  join : String → String → String
  /-- Everything readable from standard input (`buf.ReadFrom(reader)`). -/
  stdin : Except Err Bytes
  /-- The call `os.ReadFile(name)`. -/
  readFile : String → Except Err Bytes

/-- The `for` loop of `getInputList` over the lines of the JSON-lines file (lines 180-198).
Every iteration that does not leave the loop consumes at least one byte, so `fuel` greater than
the number of pending bytes is never exhausted. -/
def readLoop (unmarshal : Bytes → Except Err Input) :
    Nat → Stream → List Input → Except Err (List Input)
  | 0, _, _ => .error (.other "readLoop: out of fuel")
  | fuel + 1, r, inputList =>
    let res := ReadBytes r 10
    let lineBytes := res.1
    let err := res.2.1
    if err ≠ none ∧ err ≠ some Err.EOF then .error (err.getD Err.EOF)
    else if err = some Err.EOF ∧ lineBytes.length = 0 then .ok inputList
    else
      match unmarshal lineBytes with
      | .error e => .error e
      | .ok input => readLoop unmarshal fuel res.2.2 (inputList ++ [input])

/-- The result of `os.Lstat` on an entry. The size reported for a directory is
system-dependent and never read by this program; it is taken to be 0. -/
def lstat : Entry → Except Err FileInfo
  | .file regular size => .ok { IsDir := false, IsRegular := regular, Size := size }
  | .dir _ _ => .ok { IsDir := true, IsRegular := false, Size := 0 }
  | .broken msg => .error (.other msg)

/-- The type `filepath.WalkFunc`, with the variables its closure captures made an explicit
state: `fn(path, info, err)` returns the new state and the error. -/
abbrev WalkFunc (σ : Type) := σ → String → Option FileInfo → Option Err → σ × Option Err

mutual
/-- The unexported `walk(path, info, walkFn)` of `path/filepath`, on an entry whose `Lstat`
returned `info`. -/
def walk {σ : Type} (join : String → String → String) (walkFn : WalkFunc σ)
    (path : String) (e : Entry) (info : FileInfo) (s : σ) : σ × Option Err :=
  if !info.IsDir then walkFn s path (some info) none
  else
    match e with
    | .dir readErr kids =>
      let err : Option Err := readErr.map Err.other
      let r1 := walkFn s path (some info) err
      if err ≠ none ∨ r1.2 ≠ none then r1
      else walkNames join walkFn path kids r1.1
    | _ => walkFn s path (some info) (some (.other "readDirNames: not a directory"))
/-- The loop `for _, name := range names` of `walk`. -/
def walkNames {σ : Type} (join : String → String → String) (walkFn : WalkFunc σ)
    (path : String) (kids : List (String × Entry)) (s : σ) : σ × Option Err :=
  match kids with
  | [] => (s, none)
  | (name, e) :: rest =>
    let filename := join path name
    match lstat e with
    | .error err =>
      let r := walkFn s filename none (some err)
      if r.2 ≠ none ∧ r.2 ≠ some Err.SkipDir then r
      else walkNames join walkFn path rest r.1
    | .ok fileInfo =>
      let r := walk join walkFn filename e fileInfo s
      if r.2 ≠ none ∧ (!fileInfo.IsDir ∨ r.2 ≠ some Err.SkipDir) then r
      else walkNames join walkFn path rest r.1
end

/-- The function `filepath.Walk(root, fn)`. -/
def Walk {σ : Type} (join : String → String → String) (walkFn : WalkFunc σ)
    (root : String) (e : Entry) (s : σ) : σ × Option Err :=
  let r :=
    match lstat e with
    | .error err => walkFn s root none (some err)
    | .ok info => walk join walkFn root e info s
  if r.2 = some Err.SkipDir ∨ r.2 = some Err.SkipAll then (r.1, none) else r

/-- The closure passed to `filepath.Walk` at lines 210-224; the captured variable `input` is
the state. With a nil `err` the library always passes an `info`. -/
def walkCallback : WalkFunc Input := fun input path info err =>
  match err with
  | some e => (input, some e)
  | none =>
    match info with
    | none => (input, some (.other "nil FileInfo"))
    | some info =>
      if info.IsDir then (input, none)
      else
        (input ++ [{ Path := path, Size := (info.Size : Int), Start := 0,
                     End := (info.Size : Int) }], none)

/-- The function `getInputList` (lines 169-260). -/
def getInputList (w : InputWorld) (inputFile : String) (single : Bool)
    (inputJsonFile : String) : Except Err (List Input) :=
  let inputList : List Input := []
  if inputJsonFile ≠ "" then
    match w.openFile inputJsonFile with
    | .error err => .error err
    | .ok r => readLoop w.unmarshal (r.data.length + 1) r inputList
  else if single then
    match w.stat inputFile with
    | .error err => .error err
    | .ok stat =>
      if stat.IsDir then
        let r := Walk w.join walkCallback inputFile (w.tree inputFile) ([] : Input)
        match r.2 with
        | some err => .error err
        | none => .ok (inputList ++ [r.1])
      else
        .ok (inputList ++ [[{ Path := inputFile, Size := (stat.Size : Int), Start := 0,
                              End := (stat.Size : Int) }]])
  else
    match (if inputFile = "-" then w.stdin else w.readFile inputFile) with
    | .error err => .error err
    | .ok inputBytes =>
      match w.unmarshal inputBytes with
      | .error err => .error err
      | .ok input => .ok (inputList ++ [input])

/-- The pieces a JSON-lines file falls into: every newline-terminated line with its newline,
then the unterminated last line when there is one. -/
def chunksOf (lines : List Bytes) (last : Bytes) : List Bytes :=
  lines.map (· ++ [10]) ++ (if last = [] then [] else [last])

/-- The content of a JSON-lines file: its newline-terminated lines, then the bytes after the
last newline (none when the file ends with a newline or is empty). -/
def contentOf (lines : List Bytes) (last : Bytes) : Bytes :=
  (lines.map (· ++ [10])).flatten ++ last

/-- A world for examples: one JSON-lines file `jobs.jsonl` of two terminated lines and an
unterminated third, and a directory `data` holding a regular file `a` of 3 bytes, a symbolic
link `l` whose own length is 5 and which points to a regular file of 7 bytes, and a
sub-directory `s` with one regular file `x` of 1 byte. `os.Stat`, which follows links, reports
`data` as a directory and `data/l` as the 7-byte regular file it points to. The parser stands
for `json.Unmarshal`: it rejects lines starting with byte 9 and otherwise yields one span named
after the line length. -/
def sampleWorld : InputWorld where
  openFile := fun n =>
    if n = "jobs.jsonl" then .ok ⟨[1, 10, 2, 2, 10, 3], .EOF⟩ else .error (.other "no such file")
  unmarshal := fun b =>
    if b.head? = some 9 then .error (.other "invalid character")
    else .ok [{ Path := "f", Size := b.length, Start := 0, End := b.length }]
  stat := fun n =>
    if n = "data" then .ok ⟨true, false, 0⟩ else .ok ⟨false, true, 7⟩
  tree := fun _ =>
    .dir none [("a", .file true 3), ("l", .file false 5), ("s", .dir none [("x", .file true 1)])]
  join := fun a b => a ++ "/" ++ b
  stdin := .ok []
  readFile := fun _ => .ok []

mutual
/-- The entries below `path` that are not directories, with their sizes and whether they are
regular files, in the order `filepath.Walk` reaches them (a directory before its entries, the
entries in listing order). -/
def nonDirs (join : String → String → String) (path : String) :
    Entry → List (String × Bool × Nat)
  | .file regular size => [(path, regular, size)]
  | .dir _ kids => nonDirsIn join path kids
  | .broken _ => []
/-- The non-directory entries below the listed entries of the directory `path`. -/
def nonDirsIn (join : String → String → String) (path : String) :
    List (String × Entry) → List (String × Bool × Nat)
  | [] => []
  | (name, e) :: rest => nonDirs join (join path name) e ++ nonDirsIn join path rest
end

/-- The span covering the whole of a file of the given size. -/
def wholeFile (path : String) (size : Nat) : Finfo :=
  { Path := path, Size := (size : Int), Start := 0, End := (size : Int) }

/-- The invariant of a file span stated by the data model: `0 ≤ start ≤ end ≤ size`. -/
def Finfo.Valid (f : Finfo) : Prop :=
  0 ≤ f.Start ∧ f.Start ≤ f.End ∧ f.End ≤ f.Size

/-- The regular files below `path`, in walk order: the non-directory entries that are neither
symbolic links nor special files. -/
def regularFiles (join : String → String → String) (path : String) (e : Entry) :
    List (String × Bool × Nat) :=
  (nonDirs join path e).filter (fun x => x.2.1)

/-! ## One job: `generateCar` -/

/-- A content identifier (`cid.Cid`), by the text `String()` renders it as. -/
structure Cid where
  text : String
  deriving DecidableEq

/-- Modelled from the spec: `util.FsNode`, the object graph a job builds, whose declaration is
not among the sources; it is carried through `generateCar` untouched. -/
structure FsNode where
  json : String
  deriving DecidableEq

/-- Modelled from the spec: `map[string]util.CidMapValue`, the path index, whose value type is
not among the sources; it is carried through `generateCar` untouched. -/
structure CidMap where
  json : String
  deriving DecidableEq

/-- The three values `util.GenerateCar` returns when it succeeds: `ipld`, `cid`, `cidMap`. -/
structure Built where
  ipld : FsNode
  cid : String
  cidMap : CidMap
  deriving DecidableEq

/-- Modelled from the spec: `util.GenerateCar(ctx, input, parent, tmpDir, writer)`, which is not
among the sources, as `generateCar` and the file system observe it: a process that calls
`writer.Write(p)` any number of times, seeing the count and error each call returns, that may
copy files into the temporary directory (the usage text of `--tmp-dir`, lines 96-101:
"Optionally copy the files to a temporary (and much faster) directory"), each under a name of
its choice, and that then returns either an error or its three results. -/
inductive Encoder where
  | ret (r : Except Err Built)
  | write (p : Bytes) (next : Nat × Option Err → Encoder)
  | copy (name : String) (content : Bytes) (next : Encoder)

/-- The struct `SimpleResult` (lines 37-43). -/
structure SimpleResult where
  DataCid : String
  PieceCid : String
  PieceSize : Nat
  CarSize : Int
  FileName : String
  deriving DecidableEq

/-- The struct `Result` (lines 29-35). -/
structure Result where
  Ipld : FsNode
  DataCid : String
  PieceCid : String
  PieceSize : Nat
  CidMap : CidMap
  deriving DecidableEq

/-- The value handed to `json.Marshal` at lines 323-339. -/
inductive Output where
  | simple (r : SimpleResult)
  | verbose (r : Result)
  deriving DecidableEq

/-- A JSON value of a result record. -/
inductive JValue where
  | str (s : String)
  | uint (n : Nat)
  | int (i : Int)
  | node (n : FsNode)
  | index (m : CidMap)
  deriving DecidableEq

/-- The JSON object `json.Marshal` renders for a record: the struct has no field tags, so the
keys are the names of its exported fields, in declaration order. -/
def Output.fields : Output → List (String × JValue)
  | .simple r =>
    [("DataCid", .str r.DataCid), ("PieceCid", .str r.PieceCid), ("PieceSize", .uint r.PieceSize),
     ("CarSize", .int r.CarSize), ("FileName", .str r.FileName)]
  | .verbose r =>
    [("Ipld", .node r.Ipld), ("DataCid", .str r.DataCid), ("PieceCid", .str r.PieceCid),
     ("PieceSize", .uint r.PieceSize), ("CidMap", .index r.CidMap)]

/-- The value of a field of the rendered record, if the record has it. -/
def Output.field (o : Output) (key : String) : Option JValue :=
  o.fields.lookup key

/-- The configuration `operation.Load` returns, reduced to the flag `SubmitPath` reads. -/
structure Conf where
  Sim : Bool
  deriving DecidableEq

/-- The oracles a job consults: library and operating-system calls. -/
structure Env where
  /-- The text of `uuid.New().String()`. -/
  uuid : String
  /-- The function `path.Join`. -/
  pathJoin : String → String → String
  /-- The error of `os.Create(path)`, if it fails. -/
  createErr : String → Option Err
  /-- The process `util.GenerateCar(ctx, input, parent, tmpDir, _)`. -/
  encoder : Input → String → String → Encoder
  /-- The outcome of `carF.Write(p)` on a file of the given content: bytes written, error. -/
  fileWrite : Bytes → Bytes → Nat × Option Err
  /-- The outcome of `cp.Write(p)` after the given bytes: bytes accepted, error. -/
  cpWrite : Bytes → Bytes → Nat × Option Err
  /-- The error of `carF.Stat()`, if it fails. -/
  statErr : Option Err
  /-- The error of `carF.Close()`, if it fails. -/
  closeErr : Option Err
  /-- The result of `cp.Digest()` after the given bytes: raw commitment and piece size. -/
  digest : Bytes → Except Err (Bytes × Nat)
  /-- The function `commp.PadCommP(rawCommP, pieceSize, targetSize)`. -/
  padCommP : Bytes → Nat → Nat → Except Err Bytes
  /-- The function `commcid.DataCommitmentV1ToCID`. -/
  toCID : Bytes → Except Err Cid
  /-- The function `operation.Load(configFilePath)`. -/
  loadConf : String → Except Err Conf
  /-- The error of `uploader.Upload(path, key)`, if it fails. -/
  upload : String → String → Option Err
  /-- The error of `os.Rename(oldpath, newpath)`, if it fails. -/
  renameErr : String → String → Option Err
  /-- The error of `json.Marshal` on a record, if it fails. -/
  marshalErr : Output → Option Err

/-- The files of the local file system, by path. -/
abbrev Files := String → Option Bytes

/-- The calls a job makes that are visible outside it. -/
inductive Call where
  | Create (path : String)
  | Rename (oldpath newpath : String)
  | SubmitPath (configFilePath key path : String)
  | Upload (path key : String)
  | Println (o : Output)
  deriving DecidableEq

/-- The state of a job: the file system, the part of the job's local variables that changes
(`cp`, `writer`), and three records kept for stating properties: the earlier contents of the
file system (most recent first), the calls made so far, and the bytes the encoder has passed to
`writer.Write`. -/
structure State where
  files : Files
  /-- The bytes the accumulator `cp` has received. -/
  cp : Bytes
  /-- The bytes held in the buffer of `writer` (`b.buf[0:b.n]`). -/
  buf : Bytes
  /-- The sticky error of `writer` (`b.err`). -/
  werr : Option Err
  history : List Files
  log : List Call
  written : Bytes

/-- The constant `BufSize` (line 56). -/
def BufSize : Nat := (4 <<< 20) / 128 * 127

/-- The file system after `path` is given the content `c`. -/
def Files.set (fs : Files) (path : String) (c : Option Bytes) : Files :=
  fun p => if p = path then c else fs p

/-- The call `carF.Write(p)`: the oracle tells how many bytes reach the file and the error. -/
def fileWrite (env : Env) (outPath : String) (s : State) (p : Bytes) :
    State × Nat × Option Err :=
  let content := (s.files outPath).getD []
  let r := env.fileWrite content p
  let n := min r.1 p.length
  ({ s with files := s.files.set outPath (some (content ++ p.take n)),
            history := s.files :: s.history }, n, r.2)

/-- The call `cp.Write(p)`. -/
def cpWrite (env : Env) (s : State) (p : Bytes) : State × Nat × Option Err :=
  let r := env.cpWrite s.cp p
  let n := min r.1 p.length
  ({ s with cp := s.cp ++ p.take n }, n, r.2)

/-- The method `Write` of `io.MultiWriter(carF, cp)`: each writer in turn, stopping at the first
error or short write. -/
def multiWrite (env : Env) (outPath : String) (s : State) (p : Bytes) :
    State × Nat × Option Err :=
  let r1 := fileWrite env outPath s p
  if r1.2.2 ≠ none then r1
  else if r1.2.1 ≠ p.length then (r1.1, r1.2.1, some Err.ErrShortWrite)
  else
    let r2 := cpWrite env r1.1 p
    if r2.2.2 ≠ none then r2
    else if r2.2.1 ≠ p.length then (r2.1, r2.2.1, some Err.ErrShortWrite)
    else (r2.1, p.length, none)

/-- The method `bufio.Writer.Flush`. -/
def Flush (env : Env) (outPath : String) (s : State) : State × Option Err :=
  if s.werr ≠ none then (s, s.werr)
  else if s.buf.length = 0 then (s, none)
  else
    let r := multiWrite env outPath s s.buf
    let n := r.2.1
    let err := if n < s.buf.length ∧ r.2.2 = none then some Err.ErrShortWrite else r.2.2
    if err ≠ none then ({ r.1 with buf := s.buf.drop n, werr := err }, err)
    else ({ r.1 with buf := [] }, none)

/-- The loop of `bufio.Writer.Write`: `for len(p) > b.Available() && b.err == nil`. The state
carries `b`, the other two components are the rest of `p` and the count `nn`. -/
def writeLoop (env : Env) (outPath : String) : Nat → State → Bytes → Nat → State × Bytes × Nat
  | 0, s, p, nn => (s, p, nn)
  | fuel + 1, s, p, nn =>
    if p.length > BufSize - s.buf.length ∧ s.werr = none then
      if s.buf.length = 0 then
        let r := multiWrite env outPath s p
        writeLoop env outPath fuel { r.1 with werr := r.2.2 } (p.drop r.2.1) (nn + r.2.1)
      else
        let n := min (BufSize - s.buf.length) p.length
        let r := Flush env outPath { s with buf := s.buf ++ p.take n }
        writeLoop env outPath fuel r.1 (p.drop n) (nn + n)
    else (s, p, nn)

/-- The method `bufio.Writer.Write`. Its loop runs at most twice (a fill-and-flush round, then
a direct write), see `writeLoop_done`. -/
def Write (env : Env) (outPath : String) (s : State) (p : Bytes) : State × Nat × Option Err :=
  let r := writeLoop env outPath 2 s p 0
  if r.1.werr ≠ none then (r.1, r.2.2, r.1.werr)
  else
    let n := min (BufSize - r.1.buf.length) r.2.1.length
    ({ r.1 with buf := r.1.buf ++ r.2.1.take n }, r.2.2 + n, none)

/-- A copy of a file into the temporary directory by the builder. The scratch file has a fresh
UUID for its name, which the builder is not told; a copy is taken never to land on it, and the
state is left as it is should the two paths coincide. -/
def copyFile (env : Env) (outPath tmpDir : String) (s : State) (name : String)
    (content : Bytes) : State :=
  if env.pathJoin tmpDir name = outPath then s
  else
    { s with files := s.files.set (env.pathJoin tmpDir name) (some content),
             history := s.files :: s.history }

/-- The encoder run against `writer`, with `tmpDir` its temporary directory. -/
def runEncoder (env : Env) (outPath tmpDir : String) :
    Encoder → State → State × Except Err Built
  | .ret r, s => (s, r)
  | .write p next, s =>
    let r := Write env outPath s p
    runEncoder env outPath tmpDir (next (r.2.1, r.2.2))
      { r.1 with written := r.1.written ++ p }
  | .copy name content next, s =>
    runEncoder env outPath tmpDir next (copyFile env outPath tmpDir s name content)

/-- The state in which a job starts on a given file system: fresh `cp` and `writer`, nothing
recorded. -/
def State.init (files : Files) : State :=
  { files := files, cp := [], buf := [], werr := none, history := [], log := [], written := [] }

/-- The path of the scratch file: `path.Join(outDir, uuid.New().String() + ".car")`
(lines 263-264). -/
def scratchPath (env : Env) (outDir : String) : String :=
  env.pathJoin outDir (env.uuid ++ ".car")

/-- The state after a successful `os.Create(outPath)` (line 265), which creates the file or
truncates it. -/
def afterCreate (env : Env) (files : Files) (outDir : String) : State :=
  { State.init files with
    files := files.set (scratchPath env outDir) (some [])
    history := [files]
    log := [Call.Create (scratchPath env outDir)] }

/-- Lines 263-289 of `generateCar`: create the scratch file, run the encoder against the
buffered writer over both sinks, flush, take the file size, close. Returns the state and either
the error returned or the encoder's results with `carFileSize`. -/
def writePhase (env : Env) (files : Files) (input : Input) (parent tmpDir outDir : String) :
    State × Except Err (Built × Int) :=
  let outPath := scratchPath env outDir
  match env.createErr outPath with
  | some err => ({ State.init files with log := [Call.Create outPath] }, .error err)
  | none =>
    let r := runEncoder env outPath tmpDir (env.encoder input parent tmpDir)
      (afterCreate env files outDir)
    match r.2 with
    | .error err => (r.1, .error err)
    | .ok built =>
      let f := Flush env outPath r.1
      match f.2 with
      | some err => (f.1, .error err)
      | none =>
        match env.statErr with
        | some err => (f.1, .error err)
        | none =>
          let carFileSize : Int := (((f.1.files outPath).getD []).length : Int)
          match env.closeErr with
          | some err => (f.1, .error err)
          | none => (f.1, .ok (built, carFileSize))

/-- Lines 290-308 of `generateCar`: finalize the accumulator, pad when a piece size is given,
convert to a content identifier. Returns `commCid` and `pieceSize`. -/
def commitPhase (env : Env) (received : Bytes) (pieceSizeInput : Nat) : Except Err (Cid × Nat) :=
  match env.digest received with
  | .error err => .error err
  | .ok (rawCommP, pieceSize) =>
    let padded : Except Err (Bytes × Nat) :=
      if pieceSizeInput > 0 then
        match env.padCommP rawCommP pieceSize pieceSizeInput with
        | .error err => .error err
        | .ok rawCommP1 => .ok (rawCommP1, pieceSizeInput)
      else .ok (rawCommP, pieceSize)
    match padded with
    | .error err => .error err
    | .ok (rawCommP2, pieceSize2) =>
      match env.toCID rawCommP2 with
      | .error err => .error err
      | .ok commCid => .ok (commCid, pieceSize2)

/-- The function `util.SubmitPath` (`util/qiniu.go`). -/
def SubmitPath (env : Env) (s : State) (configFilePath key path : String) : State × Option Err :=
  match env.loadConf configFilePath with
  | .error _ => (s, some (.other "load QINIU config error"))
  | .ok conf =>
    if conf.Sim then (s, none)
    else ({ s with log := s.log ++ [Call.Upload path key] }, env.upload path key)

/-- The file system after a successful `os.Rename(oldpath, newpath)`: the file is found under
the new path, replacing what was there, and no longer under the old one. -/
def Files.rename (fs : Files) (oldpath newpath : String) : Files :=
  if oldpath = newpath then fs
  else fun p => if p = newpath then fs oldpath else if p = oldpath then none else fs p

/-- Lines 310-320 of `generateCar`: hand the file to the remote store when a configuration
path is given, rename it otherwise. -/
def promote (env : Env) (s : State) (outDir qiniuConfPath fileName : String) :
    State × Option Err :=
  let outPath := scratchPath env outDir
  let newPath := env.pathJoin outDir fileName
  if qiniuConfPath ≠ "" then
    SubmitPath env { s with log := s.log ++ [Call.SubmitPath qiniuConfPath newPath outPath] }
      qiniuConfPath newPath outPath
  else
    let s1 := { s with log := s.log ++ [Call.Rename outPath newPath] }
    match env.renameErr outPath newPath with
    | some err => (s1, some err)
    | none =>
      ({ s1 with files := s1.files.rename outPath newPath, history := s1.files :: s1.history },
        none)

/-- The record built at lines 323-339. -/
def makeOutput (simple : Bool) (built : Built) (commCid : Cid) (pieceSize : Nat)
    (carFileSize : Int) (fileName : String) : Output :=
  if simple then
    .simple { DataCid := built.cid, PieceCid := commCid.text, PieceSize := pieceSize,
              CarSize := carFileSize, FileName := fileName }
  else
    .verbose { Ipld := built.ipld, DataCid := built.cid, PieceCid := commCid.text,
               PieceSize := pieceSize, CidMap := built.cidMap }

/-- The function `generateCar` (lines 262-346), started on the given file system. The context
argument, which is `context.TODO()`, is left out. Returns the final state and the error. -/
def generateCar (env : Env) (files : Files) (input : Input) (parent tmpDir outDir : String)
    (pieceSizeInput : Nat) (qiniuConfPath : String) (simple : Bool) : State × Option Err :=
  let w := writePhase env files input parent tmpDir outDir
  match w.2 with
  | .error err => (w.1, some err)
  | .ok (built, carFileSize) =>
    match commitPhase env w.1.cp pieceSizeInput with
    | .error err => (w.1, some err)
    | .ok (commCid, pieceSize) =>
      let fileName := commCid.text ++ ".car"
      let pr := promote env w.1 outDir qiniuConfPath fileName
      match pr.2 with
      | some err => (pr.1, some err)
      | none =>
        let output := makeOutput simple built commCid pieceSize carFileSize fileName
        match env.marshalErr output with
        | some err => (pr.1, some err)
        | none => ({ pr.1 with log := pr.1.log ++ [Call.Println output] }, none)

/-- Whether a call promotes the scratch file: a rename or a hand-off to the remote store. -/
def Call.isPromote : Call → Bool
  | .Rename _ _ => true
  | .SubmitPath _ _ _ => true
  | .Upload _ _ => true
  | _ => false

/-- Whether a call emits a result record. -/
def Call.isPrintln : Call → Bool
  | .Println _ => true
  | _ => false

/-- An environment for examples. The encoder rejects a manifest with a span that ends beyond
the file size and otherwise, after copying every file of the manifest into the temporary
directory when one is given, writes a two-byte header and one byte per span; the accumulator
reports the natural size 128 and padding rejects a smaller target; the configuration
`sim.json` is a simulation, `live.json` is not. -/
def sampleEnv : Env where
  uuid := "123e4567-e89b-12d3-a456-426614174000"
  pathJoin := fun d n => d ++ "/" ++ n
  createErr := fun _ => none
  encoder := fun input _ tmpDir =>
    if input.any (fun f => decide (f.Size < f.End)) then
      .ret (.error (.other "span out of bounds"))
    else
      (if tmpDir = "" then [] else input).foldr
        (fun f e => .copy f.Path (List.replicate f.Size.toNat 0) e)
        (.write [58, 162] (fun _ => .write (input.map (fun _ => 7)) (fun _ =>
          .ret (.ok { ipld := ⟨"root"⟩, cid := "bafyroot", cidMap := ⟨"index"⟩ }))))
  fileWrite := fun _ p => (p.length, none)
  cpWrite := fun _ p => (p.length, none)
  statErr := none
  closeErr := none
  digest := fun b => .ok (b, 128)
  padCommP := fun raw cur target =>
    if cur > target then .error (.other "source padded size larger than target padded size")
    else .ok (target :: raw)
  toCID := fun raw => .ok ⟨if raw.length = 3 then "baga6ea4seaqnatural" else "baga6ea4seaqpadded"⟩
  loadConf := fun p =>
    if p = "sim.json" then .ok ⟨true⟩
    else if p = "live.json" then .ok ⟨false⟩
    else .error (.other "open: no such file")
  upload := fun _ _ => none
  renameErr := fun _ _ => none
  marshalErr := fun _ => none

/-- An empty file system. -/
def noFiles : Files := fun _ => none

/-- A manifest of one file taken whole. -/
def sampleInput : Input := [wholeFile "data/a" 3]

/-- A manifest whose span ends beyond the size of the file. -/
def badInput : Input := [{ Path := "data/a", Size := 3, Start := 0, End := 4 }]

/-- The scratch file exists, and the file system of a job differs from the one it started on,
now and at every earlier moment, at most in the scratch file and in files of the temporary
directory. -/
def Touched (env : Env) (files0 : Files) (outPath tmpDir : String) (s : State) : Prop :=
  (∃ c, s.files outPath = some c) ∧
    ∀ f ∈ s.files :: s.history, ∀ p, f p ≠ files0 p →
      p = outPath ∨ ∃ name, p = env.pathJoin tmpDir name

/-- A property of the state that the two sinks preserve and that does not depend on the
buffered writer. -/
structure Stable (env : Env) (outPath : String) (P : State → Prop) : Prop where
  fileWrite : ∀ s p, P s → P (fileWrite env outPath s p).1
  cpWrite : ∀ s p, P s → P (cpWrite env s p).1
  setBuf : ∀ (s : State) b e, P s → P { s with buf := b, werr := e }

/-- The two sinks and the buffered writer are in step: unless the writer has recorded an
error, the scratch file and the accumulator hold the same bytes, and these followed by the
buffered bytes and by `rest` are the bytes `W`. -/
def Synced (outPath : String) (W : Bytes) (s : State) (rest : Bytes) : Prop :=
  s.werr = none → ∃ c, s.files outPath = some c ∧ s.cp = c ∧ c ++ s.buf ++ rest = W

/-- The field `PieceCid`, which both records have. -/
def Output.PieceCid : Output → String
  | .simple r => r.PieceCid
  | .verbose r => r.PieceCid

/-- The field `PieceSize`, which both records have. -/
def Output.PieceSize : Output → Nat
  | .simple r => r.PieceSize
  | .verbose r => r.PieceSize

/-- The field `CarSize`, which only `SimpleResult` has. -/
def Output.CarSize : Output → Option Int
  | .simple r => some r.CarSize
  | .verbose _ => none

/-- The field `FileName`, which only `SimpleResult` has. -/
def Output.FileName : Output → Option String
  | .simple r => some r.FileName
  | .verbose _ => none

/-! ## The scheduler: the `Action` of `main` (lines 131-160) -/

/-- Where a worker goroutine stands: blocked in its `select` waiting to receive, running
`generateCar` on the manifest of index `i` it received, or returned after `waiter.Done()`. -/
inductive Worker where
  | idle
  | busy (i : Nat) (input : Input)
  | exited
  deriving DecidableEq

/-- The state of the scheduler: the index the producer loop `for _, input := range inputList`
stands at, whether `close(inputChan)` was executed, the workers, whether `log.Fatal` ended the
process, whether the `Action` returned `nil`; and two records, of the receives and of the
completed calls of `generateCar`, each entry a worker and the index of a manifest. -/
structure Sched where
  sent : Nat
  closed : Bool
  workers : List Worker
  fatal : Bool
  returned : Bool
  received : List (Nat × Nat)
  finished : List (Nat × Nat)
  deriving DecidableEq

/-- The atomic steps of the goroutines.

* `handoff w`: the send `inputChan <- input` of the producer (line 155) meets the receive of
  worker `w` (line 138); the channel is unbuffered, so the two happen together;
* `done w ok`: the call of `generateCar` by worker `w` (line 143) returns, without error when
  `ok`;
* `close`: the producer, its loop over, executes `close(inputChan)` (line 157);
* `seeClosed w`: the receive of worker `w` yields `ok == false`, it calls `waiter.Done()` and
  returns (lines 139-142);
* `ret`: `waiter.Wait()` returns and the `Action` returns `nil` (lines 158-160).

The case `<-ctx.Done()` of the `select` is never ready: `ctx` is `context.TODO()`, whose
`Done()` is a nil channel. -/
inductive Action where
  | handoff (w : Nat)
  | done (w : Nat) (ok : Bool)
  | close
  | seeClosed (w : Nat)
  | ret
  deriving DecidableEq

/-- The state after the `parallel` goroutines are started. -/
def Sched.init (parallel : Nat) : Sched :=
  { sent := 0, closed := false, workers := List.replicate parallel Worker.idle,
    fatal := false, returned := false, received := [], finished := [] }

/-- One step of the scheduler on the manifests `inputList`, `none` when the step is not
enabled. A failing `generateCar` ends the process through `log.Fatal`, after which no step is
enabled. -/
def step (inputList : List Input) (s : Sched) : Action → Option Sched
  | .handoff w =>
    if s.fatal = false ∧ s.closed = false ∧ s.workers[w]? = some Worker.idle then
      match inputList[s.sent]? with
      | some input =>
        some { s with
          sent := s.sent + 1
          workers := s.workers.set w (Worker.busy s.sent input)
          received := s.received ++ [(w, s.sent)] }
      | none => none
    else none
  | .done w ok =>
    if s.fatal = false then
      match s.workers[w]? with
      | some (Worker.busy i _) =>
        if ok then
          some { s with
            workers := s.workers.set w Worker.idle
            finished := s.finished ++ [(w, i)] }
        else some { s with fatal := true }
      | _ => none
    else none
  | .close =>
    if s.fatal = false ∧ s.closed = false ∧ s.sent = inputList.length then
      some { s with closed := true }
    else none
  | .seeClosed w =>
    if s.fatal = false ∧ s.closed = true ∧ s.workers[w]? = some Worker.idle then
      some { s with workers := s.workers.set w Worker.exited }
    else none
  | .ret =>
    if s.fatal = false ∧ s.closed = true ∧ s.returned = false ∧
        s.workers.all (fun x => decide (x = Worker.exited)) = true then
      some { s with returned := true }
    else none

/-- The state after a sequence of steps, `none` when one of them is not enabled. -/
def runSched (inputList : List Input) : Sched → List Action → Option Sched
  | s, [] => some s
  | s, a :: rest =>
    match step inputList s a with
    | some s1 => runSched inputList s1 rest
    | none => none

/-- The states the scheduler can reach with `parallel` workers on the manifests
`inputList`. -/
def Reachable (inputList : List Input) (parallel : Nat) (s : Sched) : Prop :=
  ∃ acts, runSched inputList (Sched.init parallel) acts = some s

/-- The invariant of the scheduler. -/
structure SchedInv (inputList : List Input) (parallel : Nat) (s : Sched) : Prop where
  workers_length : s.workers.length = parallel
  sent_le : s.sent ≤ inputList.length
  received_eq : s.received.map Prod.snd = List.range s.sent
  finished_nodup : (s.finished.map Prod.snd).Nodup
  finished_received : ∀ x ∈ s.finished, x ∈ s.received
  busy_owns : ∀ w i input, s.workers[w]? = some (Worker.busy i input) →
    (w, i) ∈ s.received ∧ i ∉ s.finished.map Prod.snd ∧ inputList[i]? = some input
  received_cases : ∀ w i, (w, i) ∈ s.received →
    (w, i) ∈ s.finished ∨ ∃ input, s.workers[w]? = some (Worker.busy i input)
  closed_sent : s.closed = true → s.sent = inputList.length
  returned_done : s.returned = true → s.closed = true ∧ ∀ x ∈ s.workers, x = Worker.exited

/-- Three manifests for examples. -/
def sampleJobs : List Input := [sampleInput, [], [wholeFile "data/s/x" 1]]

/-- A run of two workers over `sampleJobs` in which every call of `generateCar` succeeds. -/
def sampleRun : List Action :=
  [.handoff 0, .handoff 1, .done 1 true, .handoff 1, .done 0 true, .close, .seeClosed 0,
   .done 1 true, .seeClosed 1, .ret]

/-! # Theorems -/

/-! ## `getInputList`, JSON-lines mode -/

theorem scanDelim_line (l rest : Bytes) (h : 10 ∉ l) :
    scanDelim 10 (l ++ 10 :: rest) = (l ++ [10], rest, true) := by
  induction l with
  | nil => simp [scanDelim]
  | cons b bs ih =>
    have hb : b ≠ 10 := fun hb => h (by simp [hb])
    have hbs : 10 ∉ bs := fun hbs => h (by simp [hbs])
    simp [scanDelim, hb, ih hbs]

theorem scanDelim_last (l : Bytes) (h : 10 ∉ l) :
    scanDelim 10 l = (l, [], false) := by
  induction l with
  | nil => simp [scanDelim]
  | cons b bs ih =>
    have hb : b ≠ 10 := fun hb => h (by simp [hb])
    have hbs : 10 ∉ bs := fun hbs => h (by simp [hbs])
    simp [scanDelim, hb, ih hbs]

theorem readLoop_end (um : Bytes → Except Err Input) (fuel : Nat) (acc : List Input) :
    readLoop um (fuel + 1) ⟨[], .EOF⟩ acc = .ok acc := by
  simp [readLoop, ReadBytes, scanDelim]

theorem contentOf_cons (l : Bytes) (ls : List Bytes) (last : Bytes) :
    contentOf (l :: ls) last = l ++ 10 :: contentOf ls last := by
  simp [contentOf]

theorem chunksOf_cons (l : Bytes) (ls : List Bytes) (last : Bytes) :
    chunksOf (l :: ls) last = (l ++ [10]) :: chunksOf ls last := by
  simp [chunksOf]

/-- One iteration of the loop on a terminated line. -/
theorem readLoop_line (um : Bytes → Except Err Input) (fuel : Nat) (l rest : Bytes)
    (acc : List Input) (h : 10 ∉ l) :
    readLoop um (fuel + 1) ⟨l ++ 10 :: rest, .EOF⟩ acc =
      match um (l ++ [10]) with
      | .error e => .error e
      | .ok input => readLoop um fuel ⟨rest, .EOF⟩ (acc ++ [input]) := by
  simp [readLoop, ReadBytes, scanDelim_line l rest h]

/-- One iteration of the loop on a non-empty unterminated last line. -/
theorem readLoop_last (um : Bytes → Except Err Input) (fuel : Nat) (l : Bytes)
    (acc : List Input) (h : 10 ∉ l) (hne : l ≠ []) :
    readLoop um (fuel + 1) ⟨l, .EOF⟩ acc =
      match um l with
      | .error e => .error e
      | .ok input => readLoop um fuel ⟨[], .EOF⟩ (acc ++ [input]) := by
  simp [readLoop, ReadBytes, scanDelim_last l h, hne]

theorem readLoop_ok (um : Bytes → Except Err Input) (lines : List Bytes) (last : Bytes)
    (hlines : ∀ l ∈ lines, 10 ∉ l) (hlast : 10 ∉ last) :
    ∀ (fuel : Nat) (acc ms : List Input), (contentOf lines last).length < fuel →
      List.Forall₂ (fun c m => um c = .ok m) (chunksOf lines last) ms →
      readLoop um fuel ⟨contentOf lines last, .EOF⟩ acc = .ok (acc ++ ms) := by
  induction lines with
  | nil =>
    intro fuel acc ms hfuel hms
    by_cases hne : last = []
    · subst hne
      simp [chunksOf] at hms
      subst hms
      obtain ⟨f, rfl⟩ : ∃ f, fuel = f + 1 := ⟨fuel - 1, by omega⟩
      simpa [contentOf] using readLoop_end um f acc
    · have hlen : 0 < last.length := List.length_pos.mpr hne
      simp [contentOf] at hfuel
      obtain ⟨f, rfl⟩ : ∃ f, fuel = f + 2 := ⟨fuel - 2, by omega⟩
      simp [chunksOf, hne] at hms
      obtain ⟨m, hm, rfl⟩ : ∃ m, um last = .ok m ∧ ms = [m] := by
        cases hms with
        | cons h t => cases t; exact ⟨_, h, rfl⟩
      have := readLoop_last um (f + 1) last acc hlast hne
      simp [contentOf, this, hm, readLoop_end]
  | cons l ls ih =>
    intro fuel acc ms hfuel hms
    have hl : 10 ∉ l := hlines l (by simp)
    have hls : ∀ x ∈ ls, 10 ∉ x := fun x hx => hlines x (by simp [hx])
    rw [contentOf_cons] at hfuel ⊢
    rw [chunksOf_cons] at hms
    obtain ⟨f, rfl⟩ : ∃ f, fuel = f + 1 := ⟨fuel - 1, by simp at hfuel; omega⟩
    cases hms with
    | cons hm htail =>
      rename_i m ms1
      rw [readLoop_line um f l _ acc hl, hm]
      simp only
      rw [ih hls f (acc ++ [m]) ms1 (by simp at hfuel; omega) htail]
      simp

theorem readLoop_error (um : Bytes → Except Err Input) (lines : List Bytes) (last : Bytes)
    (hlines : ∀ l ∈ lines, 10 ∉ l) (hlast : 10 ∉ last) :
    ∀ (fuel : Nat) (acc : List Input), (contentOf lines last).length < fuel →
      (∃ c ∈ chunksOf lines last, ∃ e, um c = .error e) →
      ∃ c ∈ chunksOf lines last, ∃ e, um c = .error e ∧
        readLoop um fuel ⟨contentOf lines last, .EOF⟩ acc = .error e := by
  induction lines with
  | nil =>
    intro fuel acc hfuel hbad
    by_cases hne : last = []
    · simp [chunksOf, hne] at hbad
    · have hlen : 0 < last.length := List.length_pos.mpr hne
      simp [contentOf] at hfuel
      obtain ⟨f, rfl⟩ : ∃ f, fuel = f + 2 := ⟨fuel - 2, by omega⟩
      simp [chunksOf, hne] at hbad
      obtain ⟨e, he⟩ := hbad
      have := readLoop_last um (f + 1) last acc hlast hne
      exact ⟨last, by simp [chunksOf, hne], e, he, by simp [contentOf, this, he]⟩
  | cons l ls ih =>
    intro fuel acc hfuel hbad
    have hl : 10 ∉ l := hlines l (by simp)
    have hls : ∀ x ∈ ls, 10 ∉ x := fun x hx => hlines x (by simp [hx])
    rw [contentOf_cons] at hfuel ⊢
    rw [chunksOf_cons] at hbad ⊢
    obtain ⟨f, rfl⟩ : ∃ f, fuel = f + 1 := ⟨fuel - 1, by simp at hfuel; omega⟩
    rw [readLoop_line um f l _ acc hl]
    cases hum : um (l ++ [10]) with
    | error e => exact ⟨l ++ [10], by simp, e, hum, rfl⟩
    | ok m =>
      simp only
      have hrest : ∃ c ∈ chunksOf ls last, ∃ e, um c = .error e := by
        obtain ⟨c, hc, e, he⟩ := hbad
        rcases List.mem_cons.mp hc with rfl | hc
        · rw [hum] at he; cases he
        · exact ⟨c, hc, e, he⟩
      obtain ⟨c, hc, e, he, hres⟩ := ih hls f (acc ++ [m]) (by simp at hfuel; omega) hrest
      exact ⟨c, List.mem_cons_of_mem _ hc, e, he, hres⟩

/-- Claim C7. In JSON-lines mode (`inputJsonFile` non-empty, whatever `inputFile` and `single`
are), on a file made of newline-terminated lines followed by an optional unterminated last
line: if `json.Unmarshal` accepts every line (each handed over with its newline, as the code
does) `getInputList` returns exactly the list of the parsed manifests, one per line and in file
order, with or without a final newline; and if `json.Unmarshal` rejects some line,
`getInputList` returns the error of a rejected line, hence no manifest list. -/
theorem getInputList_jsonLines (w : InputWorld) (inputFile : String) (single : Bool)
    (inputJsonFile : String) (lines : List Bytes) (last : Bytes)
    (hname : inputJsonFile ≠ "")
    (hlines : ∀ l ∈ lines, 10 ∉ l) (hlast : 10 ∉ last)
    (hopen : w.openFile inputJsonFile = .ok ⟨contentOf lines last, .EOF⟩) :
    (∀ ms : List Input,
        List.Forall₂ (fun c m => w.unmarshal c = .ok m) (chunksOf lines last) ms →
        getInputList w inputFile single inputJsonFile = .ok ms) ∧
    ((∃ c ∈ chunksOf lines last, ∃ e, w.unmarshal c = .error e) →
        ∃ c ∈ chunksOf lines last, ∃ e, w.unmarshal c = .error e ∧
          getInputList w inputFile single inputJsonFile = .error e) := by
  constructor
  · intro ms hms
    have := readLoop_ok w.unmarshal lines last hlines hlast
      ((contentOf lines last).length + 1) [] ms (by omega) hms
    simpa [getInputList, hname, hopen] using this
  · intro hbad
    obtain ⟨c, hc, e, he, hres⟩ := readLoop_error w.unmarshal lines last hlines hlast
      ((contentOf lines last).length + 1) [] (by omega) hbad
    exact ⟨c, hc, e, he, by simpa [getInputList, hname, hopen] using hres⟩

/-- Witness of claim C7 on the three-line file of `sampleWorld`, whose last line has no
newline. -/
theorem getInputList_jsonLines_witness :
    getInputList sampleWorld "-" false "jobs.jsonl" =
      .ok [[⟨"f", 2, 0, 2⟩], [⟨"f", 3, 0, 3⟩], [⟨"f", 1, 0, 1⟩]] :=
  (getInputList_jsonLines sampleWorld "-" false "jobs.jsonl" [[1], [2, 2]] [3]
    (by decide) (by decide) (by decide) rfl).1 _ (by simp [chunksOf, sampleWorld])

/-! ## `getInputList`, filesystem-walk mode -/

theorem walkCallback_file (input : Input) (path : String) (regular : Bool) (size : Nat) :
    walkCallback input path (some ⟨false, regular, size⟩) none =
      (input ++ [wholeFile path size], none) := by
  simp [walkCallback, wholeFile]

mutual
/-- The walk with this program's callback only reports errors of the file system, never one of
the sentinels `SkipDir` and `SkipAll`. -/
theorem walk_err (join : String → String → String) :
    ∀ (e : Entry) (path : String) (info : FileInfo) (s s1 : Input) (er : Err),
      lstat e = .ok info → walk join walkCallback path e info s = (s1, some er) →
      ∃ msg, er = .other msg
  | .file regular size, path, info, s, s1, er, hinfo, h => by
    simp [lstat] at hinfo
    subst hinfo
    simp [walk, walkCallback_file] at h
  | .dir readErr kids, path, info, s, s1, er, hinfo, h => by
    simp [lstat] at hinfo
    subst hinfo
    cases readErr with
    | some msg =>
      simp [walk, walkCallback] at h
      exact ⟨msg, h.2.symm⟩
    | none =>
      simp [walk, walkCallback] at h
      exact walkNames_err join kids path s s1 er h
  | .broken msg, path, info, s, s1, er, hinfo, h => by
    simp [lstat] at hinfo
/-- The same for the loop over a directory's entries. -/
theorem walkNames_err (join : String → String → String) :
    ∀ (kids : List (String × Entry)) (path : String) (s s1 : Input) (er : Err),
      walkNames join walkCallback path kids s = (s1, some er) → ∃ msg, er = .other msg
  | [], path, s, s1, er, h => by
    simp [walkNames] at h
  | (name, e) :: rest, path, s, s1, er, h => by
    cases hl : lstat e with
    | error err =>
      cases e <;> simp [lstat] at hl
      subst hl
      simp [walkNames, lstat, walkCallback] at h
      exact ⟨_, h.2.symm⟩
    | ok fileInfo =>
      simp only [walkNames, hl] at h
      cases hr : walk join walkCallback (join path name) e fileInfo s with
      | mk s2 err =>
        rw [hr] at h
        cases err with
        | some er2 =>
          obtain ⟨msg, rfl⟩ := walk_err join e (join path name) fileInfo s s2 er2 hl hr
          simp at h
          exact ⟨msg, h.2.symm⟩
        | none =>
          simp at h
          exact walkNames_err join rest path s2 s1 er h
end

mutual
/-- A walk that reports no error has appended one whole-file span per non-directory entry. -/
theorem walk_ok (join : String → String → String) :
    ∀ (e : Entry) (path : String) (info : FileInfo) (s s1 : Input),
      lstat e = .ok info → walk join walkCallback path e info s = (s1, none) →
      s1 = s ++ (nonDirs join path e).map (fun x => wholeFile x.1 x.2.2)
  | .file regular size, path, info, s, s1, hinfo, h => by
    simp [lstat] at hinfo
    subst hinfo
    simp [walk, walkCallback_file] at h
    simp [nonDirs, h]
  | .dir readErr kids, path, info, s, s1, hinfo, h => by
    simp [lstat] at hinfo
    subst hinfo
    cases readErr with
    | some msg => simp [walk, walkCallback] at h
    | none =>
      simp [walk, walkCallback] at h
      simpa [nonDirs] using walkNames_ok join kids path s s1 h
  | .broken msg, path, info, s, s1, hinfo, h => by
    simp [lstat] at hinfo
/-- The loop over a directory's entries, when it reports no error. -/
theorem walkNames_ok (join : String → String → String) :
    ∀ (kids : List (String × Entry)) (path : String) (s s1 : Input),
      walkNames join walkCallback path kids s = (s1, none) →
      s1 = s ++ (nonDirsIn join path kids).map (fun x => wholeFile x.1 x.2.2)
  | [], path, s, s1, h => by
    simp [walkNames] at h
    simp [nonDirsIn, h]
  | (name, e) :: rest, path, s, s1, h => by
    cases hl : lstat e with
    | error err =>
      exfalso
      cases e <;> simp [lstat] at hl
      subst hl
      simp [walkNames, lstat, walkCallback] at h
    | ok fileInfo =>
      simp only [walkNames, hl] at h
      cases hr : walk join walkCallback (join path name) e fileInfo s with
      | mk s2 err =>
        cases err with
        | some er =>
          exfalso
          rw [hr] at h
          obtain ⟨msg, rfl⟩ := walk_err join e (join path name) fileInfo s s2 er hl hr
          simp at h
        | none =>
          rw [hr] at h
          simp at h
          have h1 := walk_ok join e (join path name) fileInfo s s2 hl hr
          have h2 := walkNames_ok join rest path s2 s1 h
          simp [nonDirsIn, h2, h1]
end

theorem wholeFile_valid (path : String) (size : Nat) :
    (wholeFile path size).Start = 0 ∧ (wholeFile path size).End = (wholeFile path size).Size ∧
      (wholeFile path size).Valid := by
  simp [wholeFile, Finfo.Valid]

/-- The call of `filepath.Walk` made by `getInputList`, when it reports no error. -/
theorem Walk_ok (join : String → String → String) (root : String) (e : Entry) (s1 : Input)
    (h : Walk join walkCallback root e [] = (s1, none)) :
    s1 = (nonDirs join root e).map (fun x => wholeFile x.1 x.2.2) := by
  cases hl : lstat e with
  | error err =>
    cases e <;> simp [lstat] at hl
    subst hl
    simp [Walk, lstat, walkCallback] at h
  | ok info =>
    simp only [Walk, hl] at h
    cases hr : walk join walkCallback root e info [] with
    | mk s2 err =>
      rw [hr] at h
      cases err with
      | some er =>
        obtain ⟨msg, rfl⟩ := walk_err join e root info [] s2 er hl hr
        simp at h
      | none =>
        simp at h
        subst h
        simpa using walk_ok join e root info [] s2 hl hr

/-- What the filesystem-walk mode returns on success: one manifest; when `os.Stat` reports a
directory, one span per entry below the root that `os.Lstat` does not report as a directory, in
walk order, with the size `os.Lstat` reports; otherwise one span for the root with the size
`os.Stat` reports. Every span has `Start = 0` and `End = Size`. -/
theorem getInputList_single (w : InputWorld) (inputFile : String) (l : List Input)
    (h : getInputList w inputFile true "" = .ok l) :
    ∃ stat, w.stat inputFile = .ok stat ∧
      l = [if stat.IsDir then
             (nonDirs w.join inputFile (w.tree inputFile)).map (fun x => wholeFile x.1 x.2.2)
           else [wholeFile inputFile stat.Size]] ∧
      ∀ input ∈ l, ∀ f ∈ input, f.Start = 0 ∧ f.End = f.Size ∧ f.Valid := by
  cases hs : w.stat inputFile with
  | error err => simp [getInputList, hs] at h
  | ok stat =>
    have hl : l = [if stat.IsDir then
             (nonDirs w.join inputFile (w.tree inputFile)).map (fun x => wholeFile x.1 x.2.2)
           else [wholeFile inputFile stat.Size]] := by
      cases hd : stat.IsDir with
      | false =>
        simp [getInputList, hs, hd] at h
        simp [← h, wholeFile]
      | true =>
        simp only [getInputList, hs, hd] at h
        cases hw : Walk w.join walkCallback inputFile (w.tree inputFile) [] with
        | mk s1 err =>
          rw [hw] at h
          cases err with
          | some er => simp at h
          | none =>
            simp at h
            have := Walk_ok w.join inputFile (w.tree inputFile) s1 hw
            simp [← h, this]
    refine ⟨stat, rfl, hl, ?_⟩
    intro input hin f hf
    rw [hl] at hin
    simp only [List.mem_singleton] at hin
    subst hin
    split at hf
    · obtain ⟨x, _, rfl⟩ := List.mem_map.mp hf
      exact wholeFile_valid _ _
    · simp only [List.mem_singleton] at hf
      subst hf
      exact wholeFile_valid _ _

/-- The walk over the directory `data` of `sampleWorld`, as an instance of
`getInputList_single`. -/
theorem getInputList_single_data :
    ∃ stat, sampleWorld.stat "data" = .ok stat ∧
      [[wholeFile "data/a" 3, wholeFile "data/l" 5, wholeFile "data/s/x" 1]] =
        [if stat.IsDir then
           (nonDirs sampleWorld.join "data" (sampleWorld.tree "data")).map
             (fun x => wholeFile x.1 x.2.2)
         else [wholeFile "data" stat.Size]] ∧
      ∀ input ∈ [[wholeFile "data/a" 3, wholeFile "data/l" 5, wholeFile "data/s/x" 1]],
        ∀ f ∈ input, f.Start = 0 ∧ f.End = f.Size ∧ f.Valid :=
  getInputList_single sampleWorld "data" _ rfl

/-- Claim C8 does not hold of the code on the directory `data` of `sampleWorld`. The walk gives
the symbolic link `data/l`, which is not a regular file, a span of its own, and that span does
not cover the file: its `Size` and `End` are 5, the length `os.Lstat` reports for the link
itself, while the branch for a root that is not a directory, which uses `os.Stat`, records for
the same path the 7 bytes of the file. So the manifest is not the list of whole-file spans of
the regular files under the root. -/
theorem getInputList_single_symlink :
    getInputList sampleWorld "data" true "" =
        .ok [[wholeFile "data/a" 3, wholeFile "data/l" 5, wholeFile "data/s/x" 1]] ∧
      getInputList sampleWorld "data/l" true "" = .ok [[wholeFile "data/l" 7]] ∧
      (regularFiles sampleWorld.join "data" (sampleWorld.tree "data")).map
          (fun x => wholeFile x.1 x.2.2) = [wholeFile "data/a" 3, wholeFile "data/s/x" 1] ∧
      getInputList sampleWorld "data" true "" ≠
        .ok [(regularFiles sampleWorld.join "data" (sampleWorld.tree "data")).map
          (fun x => wholeFile x.1 x.2.2)] := by
  refine ⟨rfl, rfl, rfl, ?_⟩
  intro h
  have h1 : getInputList sampleWorld "data" true "" =
      .ok [[wholeFile "data/a" 3, wholeFile "data/l" 5, wholeFile "data/s/x" 1]] := rfl
  have h2 : (regularFiles sampleWorld.join "data" (sampleWorld.tree "data")).map
      (fun x => wholeFile x.1 x.2.2) = [wholeFile "data/a" 3, wholeFile "data/s/x" 1] := rfl
  rw [h1, h2] at h
  simp at h

/-! ## `generateCar`: the calls it makes -/

theorem fileWrite_log (env : Env) (outPath : String) (s : State) (p : Bytes) :
    (fileWrite env outPath s p).1.log = s.log := rfl

theorem cpWrite_log (env : Env) (s : State) (p : Bytes) :
    (cpWrite env s p).1.log = s.log := rfl

theorem multiWrite_log (env : Env) (outPath : String) (s : State) (p : Bytes) :
    (multiWrite env outPath s p).1.log = s.log := by
  unfold multiWrite
  simp only
  split_ifs <;> simp [fileWrite_log, cpWrite_log]

theorem Flush_log (env : Env) (outPath : String) (s : State) :
    (Flush env outPath s).1.log = s.log := by
  unfold Flush
  simp only
  split_ifs <;> simp [multiWrite_log]

theorem writeLoop_log (env : Env) (outPath : String) :
    ∀ (fuel : Nat) (s : State) (p : Bytes) (nn : Nat),
      (writeLoop env outPath fuel s p nn).1.log = s.log := by
  intro fuel
  induction fuel with
  | zero => intro s p nn; rfl
  | succ k ih =>
    intro s p nn
    unfold writeLoop
    simp only
    split_ifs
    · rw [ih]; simp [multiWrite_log]
    · rw [ih]; simp [Flush_log]
    · rfl

theorem Write_log (env : Env) (outPath : String) (s : State) (p : Bytes) :
    (Write env outPath s p).1.log = s.log := by
  unfold Write
  simp only
  split_ifs <;> simp [writeLoop_log]

theorem copyFile_log (env : Env) (outPath tmpDir : String) (s : State) (name : String)
    (content : Bytes) : (copyFile env outPath tmpDir s name content).log = s.log := by
  unfold copyFile
  split_ifs <;> rfl

theorem runEncoder_log (env : Env) (outPath tmpDir : String) :
    ∀ (e : Encoder) (s : State), (runEncoder env outPath tmpDir e s).1.log = s.log := by
  intro e
  induction e with
  | ret r => intro s; rfl
  | write p next ih =>
    intro s
    unfold runEncoder
    simp only
    rw [ih]
    simp [Write_log]
  | copy name content next ih =>
    intro s
    unfold runEncoder
    rw [ih, copyFile_log]

/-- The only call the write phase makes is the creation of the scratch file. -/
theorem writePhase_log (env : Env) (files : Files) (input : Input)
    (parent tmpDir outDir : String) :
    (writePhase env files input parent tmpDir outDir).1.log =
      [Call.Create (scratchPath env outDir)] := by
  unfold writePhase
  simp only
  split
  · rfl
  · split
    · simp [runEncoder_log, afterCreate]
    · split
      · simp [Flush_log, runEncoder_log, afterCreate]
      · split
        · simp [Flush_log, runEncoder_log, afterCreate]
        · split <;> simp [Flush_log, runEncoder_log, afterCreate]

/-- What a successful commit phase means, step by step. -/
theorem commitPhase_ok (env : Env) (received : Bytes) (pieceSizeInput : Nat) (commCid : Cid)
    (size : Nat) (h : commitPhase env received pieceSizeInput = .ok (commCid, size)) :
    ∃ rawCommP pieceSize, env.digest received = .ok (rawCommP, pieceSize) ∧
      (pieceSizeInput = 0 → env.toCID rawCommP = .ok commCid ∧ size = pieceSize) ∧
      (0 < pieceSizeInput → ∃ padded,
        env.padCommP rawCommP pieceSize pieceSizeInput = .ok padded ∧
        env.toCID padded = .ok commCid ∧ size = pieceSizeInput) := by
  unfold commitPhase at h
  cases hd : env.digest received with
  | error err => simp [hd] at h
  | ok d =>
    obtain ⟨rawCommP, pieceSize⟩ := d
    refine ⟨rawCommP, pieceSize, rfl, ?_, ?_⟩
    · intro h0
      subst h0
      simp only [hd, Nat.lt_irrefl, if_false] at h
      cases ht : env.toCID rawCommP with
      | error err => simp [ht] at h
      | ok c =>
        simp [ht] at h
        exact ⟨by rw [h.1], h.2.symm⟩
    · intro hpos
      simp only [hd, hpos, if_true] at h
      cases hp : env.padCommP rawCommP pieceSize pieceSizeInput with
      | error err => simp [hp] at h
      | ok padded =>
        simp only [hp] at h
        cases ht : env.toCID padded with
        | error err => simp [ht] at h
        | ok c =>
          simp [ht] at h
          exact ⟨padded, rfl, by rw [ht, h.1], h.2.symm⟩

/-- A failing padding step fails the commit phase with the same error. -/
theorem commitPhase_pad_error (env : Env) (received : Bytes) (pieceSizeInput : Nat)
    (rawCommP : Bytes) (pieceSize : Nat) (err : Err)
    (hd : env.digest received = .ok (rawCommP, pieceSize)) (hpos : 0 < pieceSizeInput)
    (hp : env.padCommP rawCommP pieceSize pieceSizeInput = .error err) :
    commitPhase env received pieceSizeInput = .error err := by
  simp [commitPhase, hd, hpos, hp]

/-- The calls promotion adds are the rename or the hand-off, and it adds at least one. -/
theorem promote_log (env : Env) (s : State) (outDir qiniuConfPath fileName : String) :
    ∃ calls, (promote env s outDir qiniuConfPath fileName).1.log = s.log ++ calls ∧
      calls ≠ [] ∧ ∀ c ∈ calls, c.isPromote = true ∧ c.isPrintln = false := by
  unfold promote
  simp only
  split_ifs with hq
  · unfold SubmitPath
    simp only
    split
    · exact ⟨[Call.SubmitPath qiniuConfPath (env.pathJoin outDir fileName)
        (scratchPath env outDir)], by simp, by simp, by simp [Call.isPromote, Call.isPrintln]⟩
    · split_ifs
      · exact ⟨[Call.SubmitPath qiniuConfPath (env.pathJoin outDir fileName)
          (scratchPath env outDir)], by simp, by simp, by simp [Call.isPromote, Call.isPrintln]⟩
      · exact ⟨[Call.SubmitPath qiniuConfPath (env.pathJoin outDir fileName)
          (scratchPath env outDir),
          Call.Upload (scratchPath env outDir) (env.pathJoin outDir fileName)],
          by simp, by simp, by simp [Call.isPromote, Call.isPrintln]⟩
  · split
    · exact ⟨[Call.Rename (scratchPath env outDir) (env.pathJoin outDir fileName)],
        by simp, by simp, by simp [Call.isPromote, Call.isPrintln]⟩
    · exact ⟨[Call.Rename (scratchPath env outDir) (env.pathJoin outDir fileName)],
        by simp, by simp, by simp [Call.isPromote, Call.isPrintln]⟩

/-- Claim C1. In every run of `generateCar`, if the job has called `os.Rename` or handed the
file to the remote store, then the write phase succeeded, `cp.Digest()` succeeded, the padding
step succeeded when a non-zero piece size was given, and the conversion to a content identifier
succeeded. In particular, when the write phase and the digest succeed and `commp.PadCommP`
fails, `generateCar` returns that error, having made no rename or hand-off call and printed
no result record. -/
theorem generateCar_promotion_guard (env : Env) (files : Files) (input : Input)
    (parent tmpDir outDir : String) (pieceSizeInput : Nat) (qiniuConfPath : String)
    (simple : Bool) :
    ((∃ c ∈ (generateCar env files input parent tmpDir outDir pieceSizeInput qiniuConfPath
          simple).1.log, c.isPromote = true) →
      (∃ b, (writePhase env files input parent tmpDir outDir).2 = .ok b) ∧
      ∃ rawCommP pieceSize,
        env.digest (writePhase env files input parent tmpDir outDir).1.cp =
          .ok (rawCommP, pieceSize) ∧
        (pieceSizeInput = 0 → ∃ commCid, env.toCID rawCommP = .ok commCid) ∧
        (0 < pieceSizeInput → ∃ padded commCid,
          env.padCommP rawCommP pieceSize pieceSizeInput = .ok padded ∧
          env.toCID padded = .ok commCid)) ∧
    (∀ rawCommP pieceSize err,
      (∃ b, (writePhase env files input parent tmpDir outDir).2 = .ok b) →
      env.digest (writePhase env files input parent tmpDir outDir).1.cp =
        .ok (rawCommP, pieceSize) →
      0 < pieceSizeInput →
      env.padCommP rawCommP pieceSize pieceSizeInput = .error err →
      (generateCar env files input parent tmpDir outDir pieceSizeInput qiniuConfPath
          simple).2 = some err ∧
      ∀ c ∈ (generateCar env files input parent tmpDir outDir pieceSizeInput qiniuConfPath
          simple).1.log, c.isPromote = false ∧ c.isPrintln = false) := by
  have hlog := writePhase_log env files input parent tmpDir outDir
  constructor
  · rintro ⟨c, hc, hp⟩
    unfold generateCar at hc
    simp only at hc
    cases hw : (writePhase env files input parent tmpDir outDir).2 with
    | error err =>
      simp [hw, hlog] at hc
      subst hc
      simp [Call.isPromote] at hp
    | ok b =>
      obtain ⟨built, carFileSize⟩ := b
      simp only [hw] at hc
      cases hcm : commitPhase env (writePhase env files input parent tmpDir outDir).1.cp
          pieceSizeInput with
      | error err =>
        simp [hcm, hlog] at hc
        subst hc
        simp [Call.isPromote] at hp
      | ok cs =>
        obtain ⟨commCid, size⟩ := cs
        obtain ⟨rawCommP, pieceSize, hd, h0, hpos⟩ := commitPhase_ok env _ _ _ _ hcm
        refine ⟨⟨_, rfl⟩, rawCommP, pieceSize, hd, ?_, ?_⟩
        · intro hz
          exact ⟨commCid, (h0 hz).1⟩
        · intro hz
          obtain ⟨padded, h1, h2, _⟩ := hpos hz
          exact ⟨padded, commCid, h1, h2⟩
  · rintro rawCommP pieceSize err ⟨b, hw⟩ hd hpos hpad
    have hcm := commitPhase_pad_error env _ _ _ _ _ hd hpos hpad
    obtain ⟨built, carFileSize⟩ := b
    unfold generateCar
    simp only [hw, hcm, true_and]
    intro c hc
    rw [hlog] at hc
    simp only [List.mem_singleton] at hc
    subst hc
    simp [Call.isPromote, Call.isPrintln]

/-- Witness of claim C1 on `sampleEnv`: with the piece size 64, smaller than the natural size
128, padding fails and nothing but the creation of the scratch file is recorded. -/
theorem generateCar_promotion_guard_witness :
    (generateCar sampleEnv noFiles sampleInput "data" "" "out" 64 "" true).2 =
        some (.other "source padded size larger than target padded size") ∧
      ∀ c ∈ (generateCar sampleEnv noFiles sampleInput "data" "" "out" 64 "" true).1.log,
        c.isPromote = false ∧ c.isPrintln = false :=
  (generateCar_promotion_guard sampleEnv noFiles sampleInput "data" "" "out" 64 "" true).2
    [58, 162, 7] 128 _ ⟨_, rfl⟩ rfl (by decide) rfl

/-! ## `generateCar`: what the write phase does to the file system -/

theorem multiWrite_stable {env : Env} {outPath : String} {P : State → Prop}
    (hP : Stable env outPath P) (s : State) (p : Bytes) (h : P s) :
    P (multiWrite env outPath s p).1 := by
  unfold multiWrite
  simp only
  split_ifs
  · exact hP.fileWrite s p h
  · exact hP.fileWrite s p h
  · exact hP.cpWrite _ p (hP.fileWrite s p h)
  · exact hP.cpWrite _ p (hP.fileWrite s p h)
  · exact hP.cpWrite _ p (hP.fileWrite s p h)

theorem Flush_stable {env : Env} {outPath : String} {P : State → Prop}
    (hP : Stable env outPath P) (s : State) (h : P s) :
    P (Flush env outPath s).1 := by
  unfold Flush
  simp only
  split_ifs
  all_goals first
    | exact h
    | exact hP.setBuf _ _ _ (multiWrite_stable hP s _ h)

theorem writeLoop_stable {env : Env} {outPath : String} {P : State → Prop}
    (hP : Stable env outPath P) :
    ∀ (fuel : Nat) (s : State) (p : Bytes) (nn : Nat), P s →
      P (writeLoop env outPath fuel s p nn).1 := by
  intro fuel
  induction fuel with
  | zero => intro s p nn h; exact h
  | succ k ih =>
    intro s p nn h
    unfold writeLoop
    simp only
    split_ifs
    · exact ih _ _ _ (hP.setBuf _ _ _ (multiWrite_stable hP s p h))
    · exact ih _ _ _ (Flush_stable hP _ (hP.setBuf s _ s.werr h))
    · exact h

theorem Write_stable {env : Env} {outPath : String} {P : State → Prop}
    (hP : Stable env outPath P) (s : State) (p : Bytes) (h : P s) :
    P (Write env outPath s p).1 := by
  unfold Write
  simp only
  split_ifs
  · exact writeLoop_stable hP _ _ _ _ h
  · exact hP.setBuf _ _ _ (writeLoop_stable hP _ _ _ _ h)

theorem runEncoder_stable {env : Env} {outPath tmpDir : String} {P : State → Prop}
    (hP : Stable env outPath P) (hW : ∀ (s : State) w, P s → P { s with written := w })
    (hC : ∀ (s : State) name content, P s → P (copyFile env outPath tmpDir s name content)) :
    ∀ (e : Encoder) (s : State), P s → P (runEncoder env outPath tmpDir e s).1 := by
  intro e
  induction e with
  | ret r => intro s h; exact h
  | write p next ih =>
    intro s h
    unfold runEncoder
    simp only
    exact ih _ _ (hW _ _ (Write_stable hP s p h))
  | copy name content next ih =>
    intro s h
    unfold runEncoder
    exact ih _ (hC _ _ _ h)

theorem touched_stable (env : Env) (files0 : Files) (outPath tmpDir : String) :
    Stable env outPath (Touched env files0 outPath tmpDir) where
  fileWrite := by
    rintro s p ⟨_, hh⟩
    unfold Touched
    refine ⟨⟨(s.files outPath).getD [] ++
      p.take (min (env.fileWrite ((s.files outPath).getD []) p).1 p.length),
      by simp [fileWrite, Files.set]⟩, ?_⟩
    intro f hf q hq
    simp only [fileWrite, List.mem_cons] at hf
    rcases hf with rfl | hf
    · by_cases hqo : q = outPath
      · exact Or.inl hqo
      · exact hh s.files (List.mem_cons_self _ _) q (by simpa [Files.set, hqo] using hq)
    · exact hh f (List.mem_cons.mpr hf) q hq
  cpWrite := fun s p h => h
  setBuf := fun s b e h => h

theorem touched_copy (env : Env) (files0 : Files) (outPath tmpDir : String) (s : State)
    (name : String) (content : Bytes) (h : Touched env files0 outPath tmpDir s) :
    Touched env files0 outPath tmpDir (copyFile env outPath tmpDir s name content) := by
  obtain ⟨⟨c, hc⟩, hh⟩ := h
  unfold copyFile
  split_ifs with hp
  · exact ⟨⟨c, hc⟩, hh⟩
  · refine ⟨⟨c, by simp [Files.set, Ne.symm hp, hc]⟩, ?_⟩
    intro f hf q hq
    simp only [List.mem_cons] at hf
    rcases hf with rfl | hf
    · by_cases hqt : q = env.pathJoin tmpDir name
      · exact Or.inr ⟨name, hqt⟩
      · exact hh s.files (List.mem_cons_self _ _) q (by simpa [Files.set, hqt] using hq)
    · exact hh f (List.mem_cons.mpr hf) q hq

theorem afterCreate_touched (env : Env) (files : Files) (outDir tmpDir : String) :
    Touched env files (scratchPath env outDir) tmpDir (afterCreate env files outDir) := by
  refine ⟨⟨[], by simp [afterCreate, Files.set]⟩, ?_⟩
  intro f hf q hq
  simp only [afterCreate, State.init, List.mem_cons, List.mem_singleton, List.not_mem_nil,
    or_false] at hf
  rcases hf with rfl | rfl
  · left
    by_contra hqo
    exact hq (by simp [Files.set, hqo])
  · exact absurd rfl hq

/-- In the state the write phase ends in, whenever the scratch file could be created, the
scratch file exists, and the file system differs from the initial one, as it did at every
earlier moment, at most in the scratch file and in files of the temporary directory. -/
theorem writePhase_touched (env : Env) (files : Files) (input : Input)
    (parent tmpDir outDir : String) (hcreate : env.createErr (scratchPath env outDir) = none) :
    Touched env files (scratchPath env outDir) tmpDir
      (writePhase env files input parent tmpDir outDir).1 := by
  have hS := touched_stable env files (scratchPath env outDir) tmpDir
  have h1 := runEncoder_stable hS (fun _ _ h => h)
    (fun s name content h => touched_copy env files _ tmpDir s name content h)
    (env.encoder input parent tmpDir) _ (afterCreate_touched env files outDir tmpDir)
  have h2 := Flush_stable hS _ h1
  unfold writePhase
  simp only [hcreate]
  split
  · exact h1
  · split
    · exact h2
    · split
      · exact h2
      · split <;> exact h2

/-! ## `generateCar`: the result record and the promotion -/

/-- A result record is printed only by a run that succeeds in every step, and it is the record
built from the results of those steps. -/
theorem generateCar_println (env : Env) (files : Files) (input : Input)
    (parent tmpDir outDir : String) (pieceSizeInput : Nat) (qiniuConfPath : String)
    (simple : Bool) (o : Output)
    (ho : Call.Println o ∈ (generateCar env files input parent tmpDir outDir pieceSizeInput
      qiniuConfPath simple).1.log) :
    ∃ built carFileSize commCid pieceSize,
      (writePhase env files input parent tmpDir outDir).2 = .ok (built, carFileSize) ∧
      commitPhase env (writePhase env files input parent tmpDir outDir).1.cp pieceSizeInput =
        .ok (commCid, pieceSize) ∧
      o = makeOutput simple built commCid pieceSize carFileSize (commCid.text ++ ".car") ∧
      (generateCar env files input parent tmpDir outDir pieceSizeInput qiniuConfPath
        simple).2 = none := by
  have hlog := writePhase_log env files input parent tmpDir outDir
  unfold generateCar at ho ⊢
  simp only at ho ⊢
  cases hw : (writePhase env files input parent tmpDir outDir).2 with
  | error err => simp [hw, hlog] at ho
  | ok b =>
    obtain ⟨built, carFileSize⟩ := b
    simp only [hw] at ho ⊢
    cases hcm : commitPhase env (writePhase env files input parent tmpDir outDir).1.cp
        pieceSizeInput with
    | error err => simp [hcm, hlog] at ho
    | ok cs =>
      obtain ⟨commCid, size⟩ := cs
      simp only [hcm] at ho ⊢
      obtain ⟨calls, hcalls, _, hall⟩ := promote_log env
        (writePhase env files input parent tmpDir outDir).1 outDir qiniuConfPath
        (commCid.text ++ ".car")
      have hno : Call.Println o ∉ (promote env
          (writePhase env files input parent tmpDir outDir).1 outDir qiniuConfPath
          (commCid.text ++ ".car")).1.log := by
        rw [hcalls, hlog]
        intro hmem
        simp only [List.mem_append, List.mem_singleton] at hmem
        rcases hmem with hmem | hmem
        · cases hmem
        · have := (hall _ hmem).2
          simp [Call.isPrintln] at this
      cases hpr : (promote env (writePhase env files input parent tmpDir outDir).1 outDir
          qiniuConfPath (commCid.text ++ ".car")).2 with
      | some err =>
        simp only [hpr] at ho
        exact absurd ho hno
      | none =>
        simp only [hpr] at ho ⊢
        cases hm : env.marshalErr (makeOutput simple built commCid size carFileSize
            (commCid.text ++ ".car")) with
        | some err =>
          simp only [hm] at ho
          exact absurd ho hno
        | none =>
          simp only [hm] at ho ⊢
          simp only [List.mem_append, List.mem_singleton] at ho
          rcases ho with ho | ho
          · exact absurd ho hno
          · injection ho with ho
            exact ⟨built, carFileSize, commCid, size, rfl, rfl, ho, trivial⟩

/-- A run that succeeds has succeeded in every step and has printed exactly one record after
the promotion. -/
theorem generateCar_success (env : Env) (files : Files) (input : Input)
    (parent tmpDir outDir : String) (pieceSizeInput : Nat) (qiniuConfPath : String)
    (simple : Bool)
    (hok : (generateCar env files input parent tmpDir outDir pieceSizeInput qiniuConfPath
      simple).2 = none) :
    ∃ built carFileSize commCid pieceSize,
      (writePhase env files input parent tmpDir outDir).2 = .ok (built, carFileSize) ∧
      commitPhase env (writePhase env files input parent tmpDir outDir).1.cp pieceSizeInput =
        .ok (commCid, pieceSize) ∧
      (promote env (writePhase env files input parent tmpDir outDir).1 outDir qiniuConfPath
        (commCid.text ++ ".car")).2 = none ∧
      (generateCar env files input parent tmpDir outDir pieceSizeInput qiniuConfPath
        simple).1 =
        { (promote env (writePhase env files input parent tmpDir outDir).1 outDir
            qiniuConfPath (commCid.text ++ ".car")).1 with
          log := (promote env (writePhase env files input parent tmpDir outDir).1 outDir
            qiniuConfPath (commCid.text ++ ".car")).1.log ++
            [Call.Println (makeOutput simple built commCid pieceSize carFileSize
              (commCid.text ++ ".car"))] } := by
  unfold generateCar at hok ⊢
  simp only at hok ⊢
  cases hw : (writePhase env files input parent tmpDir outDir).2 with
  | error err => simp [hw] at hok
  | ok b =>
    obtain ⟨built, carFileSize⟩ := b
    simp only [hw] at hok ⊢
    cases hcm : commitPhase env (writePhase env files input parent tmpDir outDir).1.cp
        pieceSizeInput with
    | error err => simp [hcm] at hok
    | ok cs =>
      obtain ⟨commCid, size⟩ := cs
      simp only [hcm] at hok ⊢
      cases hpr : (promote env (writePhase env files input parent tmpDir outDir).1 outDir
          qiniuConfPath (commCid.text ++ ".car")).2 with
      | some err => simp [hpr] at hok
      | none =>
        simp only [hpr] at hok ⊢
        cases hm : env.marshalErr (makeOutput simple built commCid size carFileSize
            (commCid.text ++ ".car")) with
        | some err => simp [hm] at hok
        | none => exact ⟨built, carFileSize, commCid, size, rfl, rfl, hpr, rfl⟩

/-! ## `generateCar`: the two sinks receive what the encoder writes -/

theorem multiWrite_buf (env : Env) (outPath : String) (s : State) (p : Bytes) :
    (multiWrite env outPath s p).1.buf = s.buf ∧ (multiWrite env outPath s p).1.werr = s.werr ∧
      (multiWrite env outPath s p).1.written = s.written := by
  unfold multiWrite
  simp only
  split_ifs <;> simp [fileWrite, cpWrite]

theorem multiWrite_len (env : Env) (outPath : String) (s : State) (p : Bytes)
    (hok : (multiWrite env outPath s p).2.2 = none) :
    (multiWrite env outPath s p).2.1 = p.length := by
  unfold multiWrite at hok ⊢
  simp only at hok ⊢
  split_ifs at hok ⊢ <;> simp_all

/-- A write through the `MultiWriter` that reports no error has appended `p` to both sinks. -/
theorem multiWrite_ok (env : Env) (outPath : String) (s : State) (p c : Bytes)
    (hf : s.files outPath = some c) (hc : s.cp = c)
    (hok : (multiWrite env outPath s p).2.2 = none) :
    (multiWrite env outPath s p).1.files outPath = some (c ++ p) ∧
      (multiWrite env outPath s p).1.cp = c ++ p := by
  by_cases h1 : (fileWrite env outPath s p).2.2 = none
  · by_cases h2 : (fileWrite env outPath s p).2.1 = p.length
    · by_cases h3 : (cpWrite env (fileWrite env outPath s p).1 p).2.2 = none
      · by_cases h4 : (cpWrite env (fileWrite env outPath s p).1 p).2.1 = p.length
        · have e1 : min (env.fileWrite c p).1 p.length = p.length := by
            simpa [fileWrite, hf] using h2
          have e2 : min (env.cpWrite c p).1 p.length = p.length := by
            simpa [cpWrite, fileWrite, hc] using h4
          simp only [multiWrite, h1, h2, h3, h4, ne_eq, not_true_eq_false, if_false]
          constructor
          · simp [cpWrite, fileWrite, Files.set, hf, e1]
          · simp [cpWrite, fileWrite, hc, e2]
        · simp [multiWrite, h1, h2, h3, h4] at hok
      · simp [multiWrite, h1, h2, h3] at hok
    · simp [multiWrite, h1, h2] at hok
  · simp [multiWrite, h1] at hok

theorem Flush_of_err (env : Env) (outPath : String) (s : State) (h1 : s.werr ≠ none) :
    Flush env outPath s = (s, s.werr) := by
  unfold Flush
  rw [if_pos h1]

theorem Flush_of_empty (env : Env) (outPath : String) (s : State) (h1 : s.werr = none)
    (h2 : s.buf.length = 0) : Flush env outPath s = (s, none) := by
  unfold Flush
  rw [if_neg (by simp [h1]), if_pos h2]

theorem Flush_of_write_ok (env : Env) (outPath : String) (s : State) (h1 : s.werr = none)
    (h2 : s.buf.length ≠ 0) (h3 : (multiWrite env outPath s s.buf).2.2 = none) :
    Flush env outPath s = ({ (multiWrite env outPath s s.buf).1 with buf := [] }, none) := by
  have hlen := multiWrite_len env outPath s s.buf h3
  unfold Flush
  rw [if_neg (by simp [h1]), if_neg h2]
  simp only [hlen, h3, lt_self_iff_false, false_and, if_false, ne_eq, not_true_eq_false]

theorem Flush_of_write_err (env : Env) (outPath : String) (s : State) (h1 : s.werr = none)
    (h2 : s.buf.length ≠ 0) (e : Err) (h3 : (multiWrite env outPath s s.buf).2.2 = some e) :
    Flush env outPath s =
      ({ (multiWrite env outPath s s.buf).1 with
          buf := s.buf.drop (multiWrite env outPath s s.buf).2.1, werr := some e }, some e) := by
  unfold Flush
  rw [if_neg (by simp [h1]), if_neg h2]
  simp [h3]

/-- After `Flush` either the writer has an error recorded or its buffer is empty. -/
theorem Flush_alt (env : Env) (outPath : String) (s : State) :
    (Flush env outPath s).1.werr ≠ none ∨ (Flush env outPath s).1.buf = [] := by
  by_cases h1 : s.werr = none
  · by_cases h2 : s.buf.length = 0
    · right
      rw [Flush_of_empty env outPath s h1 h2]
      exact List.length_eq_zero.mp h2
    · cases h3 : (multiWrite env outPath s s.buf).2.2 with
      | none => right; rw [Flush_of_write_ok env outPath s h1 h2 h3]
      | some e => left; rw [Flush_of_write_err env outPath s h1 h2 e h3]; simp
  · left
    rw [Flush_of_err env outPath s h1]
    exact h1

/-- A `Flush` that returns no error leaves an empty buffer and no recorded error. -/
theorem Flush_ok (env : Env) (outPath : String) (s : State)
    (hok : (Flush env outPath s).2 = none) :
    (Flush env outPath s).1.buf = [] ∧ (Flush env outPath s).1.werr = none := by
  by_cases h1 : s.werr = none
  · by_cases h2 : s.buf.length = 0
    · rw [Flush_of_empty env outPath s h1 h2]
      exact ⟨List.length_eq_zero.mp h2, h1⟩
    · cases h3 : (multiWrite env outPath s s.buf).2.2 with
      | none =>
        rw [Flush_of_write_ok env outPath s h1 h2 h3]
        exact ⟨rfl, by simpa [h1] using (multiWrite_buf env outPath s s.buf).2.1⟩
      | some e =>
        rw [Flush_of_write_err env outPath s h1 h2 e h3] at hok
        simp at hok
  · rw [Flush_of_err env outPath s h1] at hok
    exact absurd hok h1

theorem Flush_synced (env : Env) (outPath : String) (W : Bytes) (s : State) (rest : Bytes)
    (h : Synced outPath W s rest) : Synced outPath W (Flush env outPath s).1 rest := by
  by_cases h1 : s.werr = none
  · obtain ⟨c, hf, hc, hW⟩ := h h1
    by_cases h2 : s.buf.length = 0
    · rw [Flush_of_empty env outPath s h1 h2]
      exact h
    · cases h3 : (multiWrite env outPath s s.buf).2.2 with
      | none =>
        obtain ⟨g1, g2⟩ := multiWrite_ok env outPath s s.buf c hf hc h3
        rw [Flush_of_write_ok env outPath s h1 h2 h3]
        intro _
        exact ⟨c ++ s.buf, g1, g2, by simpa using hW⟩
      | some e =>
        rw [Flush_of_write_err env outPath s h1 h2 e h3]
        intro hw
        simp at hw
  · rw [Flush_of_err env outPath s h1]
    exact h

theorem Flush_written (env : Env) (outPath : String) (s : State) :
    (Flush env outPath s).1.written = s.written := by
  have hm := (multiWrite_buf env outPath s s.buf).2.2
  by_cases h1 : s.werr = none
  · by_cases h2 : s.buf.length = 0
    · rw [Flush_of_empty env outPath s h1 h2]
    · cases h3 : (multiWrite env outPath s s.buf).2.2 with
      | none => rw [Flush_of_write_ok env outPath s h1 h2 h3]; exact hm
      | some e => rw [Flush_of_write_err env outPath s h1 h2 e h3]; exact hm
  · rw [Flush_of_err env outPath s h1]

theorem writeLoop_exit (env : Env) (outPath : String) (fuel : Nat) (s : State) (p : Bytes)
    (nn : Nat) (h : ¬ (p.length > BufSize - s.buf.length ∧ s.werr = none)) :
    writeLoop env outPath fuel s p nn = (s, p, nn) := by
  cases fuel with
  | zero => rfl
  | succ k =>
    unfold writeLoop
    rw [if_neg h]

theorem writeLoop_direct (env : Env) (outPath : String) (fuel : Nat) (s : State) (p : Bytes)
    (nn : Nat) (h : p.length > BufSize - s.buf.length ∧ s.werr = none)
    (hbuf : s.buf.length = 0) :
    writeLoop env outPath (fuel + 1) s p nn =
      writeLoop env outPath fuel
        { (multiWrite env outPath s p).1 with werr := (multiWrite env outPath s p).2.2 }
        (p.drop (multiWrite env outPath s p).2.1) (nn + (multiWrite env outPath s p).2.1) := by
  rw [writeLoop, if_pos h, if_pos hbuf]

theorem writeLoop_fill (env : Env) (outPath : String) (fuel : Nat) (s : State) (p : Bytes)
    (nn : Nat) (h : p.length > BufSize - s.buf.length ∧ s.werr = none)
    (hbuf : s.buf.length ≠ 0) :
    writeLoop env outPath (fuel + 1) s p nn =
      writeLoop env outPath fuel
        (Flush env outPath
          { s with buf := s.buf ++ p.take (min (BufSize - s.buf.length) p.length) }).1
        (p.drop (min (BufSize - s.buf.length) p.length))
        (nn + min (BufSize - s.buf.length) p.length) := by
  rw [writeLoop, if_pos h, if_neg hbuf]

/-- The loop of `bufio.Writer.Write` keeps the sinks in step with what is still to be
written. -/
theorem writeLoop_synced (env : Env) (outPath : String) (W : Bytes) :
    ∀ (fuel : Nat) (s : State) (p : Bytes) (nn : Nat), Synced outPath W s p →
      Synced outPath W (writeLoop env outPath fuel s p nn).1
        (writeLoop env outPath fuel s p nn).2.1 := by
  intro fuel
  induction fuel with
  | zero => intro s p nn h; exact h
  | succ k ih =>
    intro s p nn h
    by_cases hcond : p.length > BufSize - s.buf.length ∧ s.werr = none
    · obtain ⟨c, hf, hc, hW⟩ := h hcond.2
      by_cases hbuf : s.buf.length = 0
      · rw [writeLoop_direct env outPath k s p nn hcond hbuf]
        apply ih
        intro hw
        have hw1 : (multiWrite env outPath s p).2.2 = none := hw
        obtain ⟨g1, g2⟩ := multiWrite_ok env outPath s p c hf hc hw1
        have hlen := multiWrite_len env outPath s p hw1
        have hb : s.buf = [] := List.length_eq_zero.mp hbuf
        refine ⟨c ++ p, g1, g2, ?_⟩
        have hb2 : (multiWrite env outPath s p).1.buf = [] := by
          rw [(multiWrite_buf env outPath s p).1, hb]
        simp only [hb2, hlen, List.drop_length, List.append_nil]
        simpa [hb] using hW
      · rw [writeLoop_fill env outPath k s p nn hcond hbuf]
        apply ih
        apply Flush_synced
        intro _
        refine ⟨c, hf, hc, ?_⟩
        simp only [List.append_assoc, List.take_append_drop]
        simpa using hW
    · rw [writeLoop_exit env outPath (k + 1) s p nn hcond]
      exact h

/-- Two rounds are enough for the loop of `bufio.Writer.Write`: after them its condition
`len(p) > b.Available() && b.err == nil` is false. -/
theorem writeLoop_done (env : Env) (outPath : String) (s : State) (p : Bytes) (nn : Nat) :
    ¬ ((writeLoop env outPath 2 s p nn).2.1.length >
          BufSize - (writeLoop env outPath 2 s p nn).1.buf.length ∧
        (writeLoop env outPath 2 s p nn).1.werr = none) := by
  have direct : ∀ (t : State) (q : Bytes),
      ¬ ((q.drop (multiWrite env outPath t q).2.1).length >
          BufSize - ({ (multiWrite env outPath t q).1 with
            werr := (multiWrite env outPath t q).2.2 } : State).buf.length ∧
        ({ (multiWrite env outPath t q).1 with
            werr := (multiWrite env outPath t q).2.2 } : State).werr = none) := by
    intro t q hc
    have hw : (multiWrite env outPath t q).2.2 = none := hc.2
    have := multiWrite_len env outPath t q hw
    rw [this] at hc
    simp at hc
  by_cases hcond : p.length > BufSize - s.buf.length ∧ s.werr = none
  · by_cases hbuf : s.buf.length = 0
    · rw [writeLoop_direct env outPath 1 s p nn hcond hbuf,
        writeLoop_exit env outPath 1 _ _ _ (direct s p)]
      exact direct s p
    · rw [writeLoop_fill env outPath 1 s p nn hcond hbuf]
      have halt := Flush_alt env outPath
        { s with buf := s.buf ++ p.take (min (BufSize - s.buf.length) p.length) }
      generalize Flush env outPath
        { s with buf := s.buf ++ p.take (min (BufSize - s.buf.length) p.length) } = r at halt ⊢
      by_cases h2 : (p.drop (min (BufSize - s.buf.length) p.length)).length >
          BufSize - r.1.buf.length ∧ r.1.werr = none
      · by_cases h3 : r.1.buf.length = 0
        · rw [writeLoop_direct env outPath 0 _ _ _ h2 h3]
          exact direct _ _
        · exfalso
          rcases halt with hw | hb
          · exact hw h2.2
          · exact h3 (by rw [hb]; rfl)
      · rw [writeLoop_exit env outPath 1 _ _ _ h2]
        exact h2
  · rw [writeLoop_exit env outPath 2 s p nn hcond]
    exact hcond

theorem writeLoop_written (env : Env) (outPath : String) :
    ∀ (fuel : Nat) (s : State) (p : Bytes) (nn : Nat),
      (writeLoop env outPath fuel s p nn).1.written = s.written := by
  intro fuel
  induction fuel with
  | zero => intro s p nn; rfl
  | succ k ih =>
    intro s p nn
    by_cases hcond : p.length > BufSize - s.buf.length ∧ s.werr = none
    · by_cases hbuf : s.buf.length = 0
      · rw [writeLoop_direct env outPath k s p nn hcond hbuf, ih]
        exact (multiWrite_buf env outPath s p).2.2
      · rw [writeLoop_fill env outPath k s p nn hcond hbuf, ih, Flush_written]
    · rw [writeLoop_exit env outPath (k + 1) s p nn hcond]

theorem Write_written (env : Env) (outPath : String) (s : State) (p : Bytes) :
    (Write env outPath s p).1.written = s.written := by
  unfold Write
  simp only
  split_ifs <;> simp [writeLoop_written]

/-- The method `Write` of the buffered writer keeps the sinks in step: the bytes in the sinks
followed by the buffered ones grow by exactly `p`. -/
theorem Write_synced (env : Env) (outPath : String) (W : Bytes) (s : State) (p : Bytes)
    (h : Synced outPath W s []) : Synced outPath (W ++ p) (Write env outPath s p).1 [] := by
  have h0 : Synced outPath (W ++ p) s p := by
    intro hw
    obtain ⟨c, hf, hc, hW⟩ := h hw
    exact ⟨c, hf, hc, by rw [← hW]; simp⟩
  have h1 := writeLoop_synced env outPath (W ++ p) 2 s p 0 h0
  have hdone := writeLoop_done env outPath s p 0
  unfold Write
  simp only
  generalize writeLoop env outPath 2 s p 0 = r at h1 hdone
  by_cases hw : r.1.werr = none
  · rw [if_neg (by simp [hw])]
    obtain ⟨c, hf, hc, hW⟩ := h1 hw
    have hle : r.2.1.length ≤ BufSize - r.1.buf.length := by
      by_contra hlt
      exact hdone ⟨by omega, hw⟩
    intro _
    refine ⟨c, hf, hc, ?_⟩
    simp only [Nat.min_eq_right hle, List.take_length, List.append_nil]
    simpa using hW
  · rw [if_pos hw]
    intro hw2
    exact absurd hw2 hw

/-- While the encoder runs, the sinks followed by the buffer hold what it has written. -/
theorem runEncoder_synced (env : Env) (outPath tmpDir : String) :
    ∀ (e : Encoder) (s : State), Synced outPath s.written s [] →
      Synced outPath (runEncoder env outPath tmpDir e s).1.written
        (runEncoder env outPath tmpDir e s).1 [] := by
  intro e
  induction e with
  | ret r => intro s h; exact h
  | write p next ih =>
    intro s h
    unfold runEncoder
    simp only
    apply ih
    have := Write_synced env outPath s.written s p h
    simpa [Synced, Write_written] using this
  | copy name content next ih =>
    intro s h
    unfold runEncoder
    apply ih
    unfold copyFile
    split_ifs with hp
    · exact h
    · intro hw
      obtain ⟨c, hf, hc, hW⟩ := h hw
      exact ⟨c, by simp [Files.set, Ne.symm hp, hf], hc, hW⟩

/-- When the write phase succeeds, so that `cp.Digest()` is called next, the accumulator has received exactly the bytes the encoder passed to `writer.Write`, the
scratch file holds exactly these bytes, the buffer of `writer` is empty, and `carFileSize` is
their number. -/
theorem writePhase_synced (env : Env) (files : Files) (input : Input)
    (parent tmpDir outDir : String) (built : Built) (carFileSize : Int)
    (hok : (writePhase env files input parent tmpDir outDir).2 = .ok (built, carFileSize)) :
    (writePhase env files input parent tmpDir outDir).1.cp =
        (writePhase env files input parent tmpDir outDir).1.written ∧
      (writePhase env files input parent tmpDir outDir).1.files (scratchPath env outDir) =
        some (writePhase env files input parent tmpDir outDir).1.written ∧
      (writePhase env files input parent tmpDir outDir).1.buf = [] ∧
      carFileSize = ((writePhase env files input parent tmpDir outDir).1.written.length : Int) := by
  have h0 : Synced (scratchPath env outDir) (afterCreate env files outDir).written
      (afterCreate env files outDir) [] := by
    intro _
    exact ⟨[], by simp [afterCreate, Files.set], rfl, rfl⟩
  have h1 := runEncoder_synced env (scratchPath env outDir) tmpDir
    (env.encoder input parent tmpDir) _ h0
  have h2 := Flush_synced env _ _ _ _ h1
  rw [← Flush_written env (scratchPath env outDir)] at h2
  unfold writePhase at hok ⊢
  simp only at hok ⊢
  cases hc : env.createErr (scratchPath env outDir) with
  | some err => simp [hc] at hok
  | none =>
    simp only [hc] at hok ⊢
    generalize runEncoder env (scratchPath env outDir) tmpDir
      (env.encoder input parent tmpDir) (afterCreate env files outDir) = r at hok h2 ⊢
    cases hr : r.2 with
    | error err => simp [hr] at hok
    | ok b =>
      simp only [hr] at hok ⊢
      cases hfl : (Flush env (scratchPath env outDir) r.1).2 with
      | some err => simp [hfl] at hok
      | none =>
        obtain ⟨hbuf, hwerr⟩ := Flush_ok env _ _ hfl
        obtain ⟨c, hf, hcp, hW⟩ := h2 hwerr
        simp only [hfl] at hok ⊢
        cases hst : env.statErr with
        | some err => simp [hst] at hok
        | none =>
          simp only [hst] at hok ⊢
          cases hcl : env.closeErr with
          | some err => simp [hcl] at hok
          | none =>
            simp only [hcl] at hok ⊢
            rw [hbuf] at hW
            simp only [List.append_nil] at hW
            subst hW
            simp only [Except.ok.injEq, Prod.mk.injEq] at hok
            refine ⟨hcp, hf, hbuf, ?_⟩
            rw [← hok.2, hf]
            rfl

/-- Claim C9. In every job that reaches the call `cp.Digest()` (the write phase succeeded, which
it cannot when a write to either sink failed): at that moment the bytes the accumulator has
received are exactly the bytes the encoder passed to `writer.Write` and exactly the content of
the scratch file, the buffer of `writer` being empty; and the `CarSize` of a result record the
job prints is the length of that byte sequence. -/
theorem generateCar_sinks_agree (env : Env) (files : Files) (input : Input)
    (parent tmpDir outDir : String) (pieceSizeInput : Nat) (qiniuConfPath : String)
    (simple : Bool) (built : Built) (carFileSize : Int)
    (hok : (writePhase env files input parent tmpDir outDir).2 = .ok (built, carFileSize)) :
    (writePhase env files input parent tmpDir outDir).1.cp =
        (writePhase env files input parent tmpDir outDir).1.written ∧
      (writePhase env files input parent tmpDir outDir).1.files (scratchPath env outDir) =
        some (writePhase env files input parent tmpDir outDir).1.written ∧
      (writePhase env files input parent tmpDir outDir).1.buf = [] ∧
      ∀ o, Call.Println o ∈ (generateCar env files input parent tmpDir outDir pieceSizeInput
          qiniuConfPath simple).1.log →
        ∀ n, o.CarSize = some n →
          n = ((writePhase env files input parent tmpDir outDir).1.written.length : Int) := by
  obtain ⟨h1, h2, h3, h4⟩ := writePhase_synced env files input parent tmpDir outDir built
    carFileSize hok
  refine ⟨h1, h2, h3, ?_⟩
  intro o ho n hn
  obtain ⟨built1, size1, commCid, pieceSize, hw, _, rfl, _⟩ :=
    generateCar_println env files input parent tmpDir outDir pieceSizeInput qiniuConfPath
      simple o ho
  rw [hok] at hw
  simp only [Except.ok.injEq, Prod.mk.injEq] at hw
  cases simple with
  | false => simp [makeOutput, Output.CarSize] at hn
  | true =>
    simp only [makeOutput, Output.CarSize, if_true, Option.some.injEq] at hn
    rw [← hn, ← hw.2, h4]

/-- Witness of claim C9 on `sampleEnv`: the three bytes the encoder writes for `sampleInput`
are in both sinks. -/
theorem generateCar_sinks_agree_witness :
    (writePhase sampleEnv noFiles sampleInput "data" "" "out").1.cp = [58, 162, 7] ∧
      (writePhase sampleEnv noFiles sampleInput "data" "" "out").1.written = [58, 162, 7] ∧
      (writePhase sampleEnv noFiles sampleInput "data" "" "out").1.files
        (scratchPath sampleEnv "out") = some [58, 162, 7] ∧
      ∀ o, Call.Println o ∈ (generateCar sampleEnv noFiles sampleInput "data" "" "out" 0 ""
          true).1.log → ∀ n, o.CarSize = some n → n = 3 :=
  have h := generateCar_sinks_agree sampleEnv noFiles sampleInput "data" "" "out" 0 "" true
    { ipld := ⟨"root"⟩, cid := "bafyroot", cidMap := ⟨"index"⟩ } 3 rfl
  ⟨h.1, rfl, h.2.1, h.2.2.2⟩

/-- Claim C5. For every job that prints a result record: when the requested piece size is 0,
the record's `PieceSize` is the piece size `cp.Digest()` returned and its `PieceCid` is the
identifier of the digest as returned, `commp.PadCommP` not being applied; when the requested
size is not 0, padding succeeded, the record's `PieceSize` is the requested size and its
`PieceCid` is the identifier of `PadCommP(digest, natural size, requested size)`. -/
theorem generateCar_piece_size (env : Env) (files : Files) (input : Input)
    (parent tmpDir outDir : String) (pieceSizeInput : Nat) (qiniuConfPath : String)
    (simple : Bool) (o : Output)
    (ho : Call.Println o ∈ (generateCar env files input parent tmpDir outDir pieceSizeInput
      qiniuConfPath simple).1.log) :
    ∃ rawCommP pieceSize,
      env.digest (writePhase env files input parent tmpDir outDir).1.cp =
        .ok (rawCommP, pieceSize) ∧
      (pieceSizeInput = 0 →
        o.PieceSize = pieceSize ∧
        ∃ commCid, env.toCID rawCommP = .ok commCid ∧ o.PieceCid = commCid.text) ∧
      (pieceSizeInput ≠ 0 →
        ∃ padded commCid, env.padCommP rawCommP pieceSize pieceSizeInput = .ok padded ∧
          env.toCID padded = .ok commCid ∧
          o.PieceSize = pieceSizeInput ∧ o.PieceCid = commCid.text) := by
  obtain ⟨built, size, commCid, pieceSize, _, hcm, rfl, _⟩ :=
    generateCar_println env files input parent tmpDir outDir pieceSizeInput qiniuConfPath
      simple o ho
  obtain ⟨rawCommP, natural, hd, h0, hpos⟩ := commitPhase_ok env _ _ _ _ hcm
  have hsize : (makeOutput simple built commCid pieceSize size
      (commCid.text ++ ".car")).PieceSize = pieceSize := by
    cases simple <;> simp [makeOutput, Output.PieceSize]
  have hcid : (makeOutput simple built commCid pieceSize size
      (commCid.text ++ ".car")).PieceCid = commCid.text := by
    cases simple <;> simp [makeOutput, Output.PieceCid]
  refine ⟨rawCommP, natural, hd, ?_, ?_⟩
  · intro hz
    obtain ⟨h1, h2⟩ := h0 hz
    exact ⟨by rw [hsize, h2], commCid, h1, hcid⟩
  · intro hz
    obtain ⟨padded, h1, h2, h3⟩ := hpos (Nat.pos_of_ne_zero hz)
    exact ⟨padded, commCid, h1, h2, by rw [hsize, h3], hcid⟩

/-- Witness of claim C5 on `sampleEnv` with the requested piece size 256: the record printed
carries the requested size and the identifier of the padded digest. -/
theorem generateCar_piece_size_witness :
    ∃ rawCommP pieceSize,
      sampleEnv.digest (writePhase sampleEnv noFiles sampleInput "data" "" "out").1.cp =
        .ok (rawCommP, pieceSize) ∧
      ((256 : Nat) = 0 →
        (Output.simple ⟨"bafyroot", "baga6ea4seaqpadded", 256, 3,
          "baga6ea4seaqpadded.car"⟩).PieceSize = pieceSize ∧
        ∃ commCid, sampleEnv.toCID rawCommP = .ok commCid ∧
          (Output.simple ⟨"bafyroot", "baga6ea4seaqpadded", 256, 3,
            "baga6ea4seaqpadded.car"⟩).PieceCid = commCid.text) ∧
      ((256 : Nat) ≠ 0 →
        ∃ padded commCid, sampleEnv.padCommP rawCommP pieceSize 256 = .ok padded ∧
          sampleEnv.toCID padded = .ok commCid ∧
          (Output.simple ⟨"bafyroot", "baga6ea4seaqpadded", 256, 3,
            "baga6ea4seaqpadded.car"⟩).PieceSize = 256 ∧
          (Output.simple ⟨"bafyroot", "baga6ea4seaqpadded", 256, 3,
            "baga6ea4seaqpadded.car"⟩).PieceCid = commCid.text) :=
  generateCar_piece_size sampleEnv noFiles sampleInput "data" "" "out" 256 "" true
    (.simple ⟨"bafyroot", "baga6ea4seaqpadded", 256, 3, "baga6ea4seaqpadded.car"⟩)
    (by decide)

/-- What promotion does to the file system: nothing, or, in the configuration without a remote
store, the rename of the scratch file. -/
theorem promote_files (env : Env) (s : State) (outDir qiniuConfPath fileName : String) :
    ((promote env s outDir qiniuConfPath fileName).1.files = s.files ∧
        (promote env s outDir qiniuConfPath fileName).1.history = s.history ∧
        ((promote env s outDir qiniuConfPath fileName).2 = none → qiniuConfPath ≠ "")) ∨
      (qiniuConfPath = "" ∧
        (promote env s outDir qiniuConfPath fileName).1.files =
          s.files.rename (scratchPath env outDir) (env.pathJoin outDir fileName) ∧
        (promote env s outDir qiniuConfPath fileName).1.history = s.files :: s.history) := by
  by_cases hq : qiniuConfPath = ""
  · subst hq
    cases hr : env.renameErr (scratchPath env outDir) (env.pathJoin outDir fileName) with
    | some err =>
      left
      simp [promote, hr]
    | none =>
      right
      simp [promote, hr]
  · left
    simp only [promote, ne_eq, hq, not_false_eq_true, if_true, SubmitPath]
    split
    · simp
    · split_ifs <;> simp

/-- Claim C2, as the code has it. When `util.GenerateCar` returns an error, the scratch file
having been created before it was called, `generateCar` returns that error; the only call it
has made is the creation of the scratch file (no rename, no hand-off, no result record), and the
scratch file is in the output directory under its scratch name when `generateCar` returns. -/
theorem generateCar_builder_error (env : Env) (files : Files) (input : Input)
    (parent tmpDir outDir : String) (pieceSizeInput : Nat) (qiniuConfPath : String)
    (simple : Bool) (err : Err)
    (hcreate : env.createErr (scratchPath env outDir) = none)
    (hbuild : (runEncoder env (scratchPath env outDir) tmpDir
      (env.encoder input parent tmpDir) (afterCreate env files outDir)).2 = .error err) :
    (generateCar env files input parent tmpDir outDir pieceSizeInput qiniuConfPath
        simple).2 = some err ∧
      (generateCar env files input parent tmpDir outDir pieceSizeInput qiniuConfPath
        simple).1.log = [Call.Create (scratchPath env outDir)] ∧
      ∃ c, (generateCar env files input parent tmpDir outDir pieceSizeInput qiniuConfPath
        simple).1.files (scratchPath env outDir) = some c := by
  have hlog := writePhase_log env files input parent tmpDir outDir
  obtain ⟨⟨c, hc⟩, _⟩ := writePhase_touched env files input parent tmpDir outDir hcreate
  have hw : (writePhase env files input parent tmpDir outDir).2 = .error err := by
    simp [writePhase, hcreate, hbuild]
  have hg : generateCar env files input parent tmpDir outDir pieceSizeInput qiniuConfPath
      simple = ((writePhase env files input parent tmpDir outDir).1, some err) := by
    simp [generateCar, hw]
  rw [hg]
  exact ⟨rfl, hlog, c, hc⟩

/-- Witness of `generateCar_builder_error` on `sampleEnv` and the manifest `badInput`. -/
theorem generateCar_builder_error_witness :
    (generateCar sampleEnv noFiles badInput "data" "" "out" 0 "" true).2 =
        some (.other "span out of bounds") ∧
      (generateCar sampleEnv noFiles badInput "data" "" "out" 0 "" true).1.log =
        [Call.Create (scratchPath sampleEnv "out")] ∧
      ∃ c, (generateCar sampleEnv noFiles badInput "data" "" "out" 0 "" true).1.files
        (scratchPath sampleEnv "out") = some c :=
  generateCar_builder_error sampleEnv noFiles badInput "data" "" "out" 0 "" true _ rfl rfl

/-- Claim C2 as stated fails on `sampleEnv` and the manifest `badInput`, whose span ends
beyond the size of the file: `util.GenerateCar` rejects it, `generateCar` returns that error,
and at that moment the scratch file, absent before, exists in the output directory. -/
theorem generateCar_rejected_after_create :
    (runEncoder sampleEnv (scratchPath sampleEnv "out") "" (sampleEnv.encoder badInput "data" "")
        (afterCreate sampleEnv noFiles "out")).2 = .error (.other "span out of bounds") ∧
      (generateCar sampleEnv noFiles badInput "data" "" "out" 0 "" true).2 =
        some (.other "span out of bounds") ∧
      noFiles "out/123e4567-e89b-12d3-a456-426614174000.car" = none ∧
      (generateCar sampleEnv noFiles badInput "data" "" "out" 0 "" true).1.files
        "out/123e4567-e89b-12d3-a456-426614174000.car" = some [] := by
  refine ⟨rfl, rfl, rfl, ?_⟩
  decide

/-- Claim C4, as the code has it. For every job that prints a result record: a compact record
has `FileName` equal to its `PieceCid` followed by ".car" (a verbose record has no `FileName`);
and in the configuration without a remote store, when `generateCar` returns, the file of that
name in the output directory holds the archive, and the scratch path, when it is another path,
holds no file. -/
theorem generateCar_canonical_name (env : Env) (files : Files) (input : Input)
    (parent tmpDir outDir : String) (pieceSizeInput : Nat) (qiniuConfPath : String)
    (simple : Bool) (o : Output)
    (ho : Call.Println o ∈ (generateCar env files input parent tmpDir outDir pieceSizeInput
      qiniuConfPath simple).1.log) :
    (simple = true → o.FileName = some (o.PieceCid ++ ".car")) ∧
    (qiniuConfPath = "" →
      (generateCar env files input parent tmpDir outDir pieceSizeInput qiniuConfPath
          simple).1.files (env.pathJoin outDir (o.PieceCid ++ ".car")) =
        some (writePhase env files input parent tmpDir outDir).1.written ∧
      (scratchPath env outDir ≠ env.pathJoin outDir (o.PieceCid ++ ".car") →
        (generateCar env files input parent tmpDir outDir pieceSizeInput qiniuConfPath
          simple).1.files (scratchPath env outDir) = none)) := by
  obtain ⟨built, size, commCid, pieceSize, hw, hcm, rfl, hnone⟩ :=
    generateCar_println env files input parent tmpDir outDir pieceSizeInput qiniuConfPath
      simple o ho
  obtain ⟨built1, size1, commCid1, pieceSize1, hw1, hcm1, hpr, hst⟩ :=
    generateCar_success env files input parent tmpDir outDir pieceSizeInput qiniuConfPath
      simple hnone
  rw [hw] at hw1
  rw [hcm] at hcm1
  simp only [Except.ok.injEq, Prod.mk.injEq] at hw1 hcm1
  obtain ⟨rfl, rfl⟩ := hw1
  obtain ⟨rfl, rfl⟩ := hcm1
  have hcid : (makeOutput simple built commCid pieceSize size
      (commCid.text ++ ".car")).PieceCid = commCid.text := by
    cases simple <;> simp [makeOutput, Output.PieceCid]
  obtain ⟨_, hfile, _, _⟩ := writePhase_synced env files input parent tmpDir outDir built
    size hw
  constructor
  · intro hs
    subst hs
    simp [makeOutput, Output.FileName, Output.PieceCid]
  · intro hq
    rw [hcid, hst]
    rcases promote_files env (writePhase env files input parent tmpDir outDir).1 outDir
        qiniuConfPath (commCid.text ++ ".car") with ⟨_, _, hne⟩ | ⟨_, hfiles, _⟩
    · exact absurd hq (hne hpr)
    · simp only [hfiles, Files.rename]
      constructor
      · split_ifs with heq
        · rw [← heq]; exact hfile
        · simpa using hfile
      · intro hne
        simp [hne]

/-- Witness of `generateCar_canonical_name` on `sampleEnv`, in the configuration without a
remote store. -/
theorem generateCar_canonical_name_witness :
    (generateCar sampleEnv noFiles sampleInput "data" "" "out" 0 "" true).1.files
        "out/baga6ea4seaqnatural.car" = some [58, 162, 7] ∧
      (generateCar sampleEnv noFiles sampleInput "data" "" "out" 0 "" true).1.files
        "out/123e4567-e89b-12d3-a456-426614174000.car" = none :=
  have h := generateCar_canonical_name sampleEnv noFiles sampleInput "data" "" "out" 0 "" true
    (.simple ⟨"bafyroot", "baga6ea4seaqnatural", 128, 3, "baga6ea4seaqnatural.car"⟩)
    (by decide)
  ⟨(h.2 rfl).1, (h.2 rfl).2 (by decide)⟩

/-- Claim C4 as stated fails on `sampleEnv`. With the simulation configuration `sim.json` the
job succeeds and prints a record whose `FileName` is `baga6ea4seaqnatural.car`, but when
`generateCar` returns no file of that name is in the output directory and the archive is still
under its scratch name; and a verbose record has no `FileName` at all. -/
theorem generateCar_simulated_publish :
    (generateCar sampleEnv noFiles sampleInput "data" "" "out" 0 "sim.json" true).2 = none ∧
      Call.Println (.simple ⟨"bafyroot", "baga6ea4seaqnatural", 128, 3,
          "baga6ea4seaqnatural.car"⟩) ∈
        (generateCar sampleEnv noFiles sampleInput "data" "" "out" 0 "sim.json" true).1.log ∧
      (generateCar sampleEnv noFiles sampleInput "data" "" "out" 0 "sim.json" true).1.files
        "out/baga6ea4seaqnatural.car" = none ∧
      (generateCar sampleEnv noFiles sampleInput "data" "" "out" 0 "sim.json" true).1.files
        "out/123e4567-e89b-12d3-a456-426614174000.car" = some [58, 162, 7] ∧
      Call.Println (.verbose ⟨⟨"root"⟩, "bafyroot", "baga6ea4seaqnatural", 128, ⟨"index"⟩⟩) ∈
        (generateCar sampleEnv noFiles sampleInput "data" "" "out" 0 "" false).1.log ∧
      (Output.verbose ⟨⟨"root"⟩, "bafyroot", "baga6ea4seaqnatural", 128,
        ⟨"index"⟩⟩).FileName = none := by
  refine ⟨rfl, ?_, ?_, ?_, ?_, rfl⟩ <;> decide

/-- The results a successful write phase hands on are those `util.GenerateCar` returned. -/
theorem writePhase_built (env : Env) (files : Files) (input : Input)
    (parent tmpDir outDir : String) (built : Built) (carFileSize : Int)
    (hok : (writePhase env files input parent tmpDir outDir).2 = .ok (built, carFileSize)) :
    (runEncoder env (scratchPath env outDir) tmpDir (env.encoder input parent tmpDir)
      (afterCreate env files outDir)).2 = .ok built := by
  unfold writePhase at hok
  simp only at hok
  cases hc : env.createErr (scratchPath env outDir) with
  | some err => simp [hc] at hok
  | none =>
    simp only [hc] at hok
    generalize runEncoder env (scratchPath env outDir) tmpDir
      (env.encoder input parent tmpDir) (afterCreate env files outDir) = r at hok ⊢
    cases hr : r.2 with
    | error err => simp [hr] at hok
    | ok b =>
      simp only [hr] at hok
      cases hfl : (Flush env (scratchPath env outDir) r.1).2 with
      | some err => simp [hfl] at hok
      | none =>
        simp only [hfl] at hok
        cases hst : env.statErr with
        | some err => simp [hst] at hok
        | none =>
          simp only [hst] at hok
          cases hcl : env.closeErr with
          | some err => simp [hcl] at hok
          | none =>
            simp only [hcl, Except.ok.injEq, Prod.mk.injEq] at hok
            rw [hok.1]

/-- Claim C6, as the code has it. For every job, the verbose record (printed when `simple` is
false) and the compact record (printed when it is true) agree on the content root id
`DataCid`, the piece commitment id `PieceCid` and the piece size `PieceSize`, which both have;
the verbose record has in addition, as `Ipld` and `CidMap`, the object graph and the path index
that `util.GenerateCar` returned, its `DataCid` being the root identifier returned with them;
the archive size `CarSize` and the file name `FileName` are in the compact record only. -/
theorem generateCar_records (env : Env) (files : Files) (input : Input)
    (parent tmpDir outDir : String) (pieceSizeInput : Nat) (qiniuConfPath : String)
    (os ov : Output)
    (hs : Call.Println os ∈ (generateCar env files input parent tmpDir outDir pieceSizeInput
      qiniuConfPath true).1.log)
    (hv : Call.Println ov ∈ (generateCar env files input parent tmpDir outDir pieceSizeInput
      qiniuConfPath false).1.log) :
    (∀ key ∈ ["DataCid", "PieceCid", "PieceSize"],
        ov.field key = os.field key ∧ os.field key ≠ none) ∧
      (∃ built,
        (runEncoder env (scratchPath env outDir) tmpDir (env.encoder input parent tmpDir)
          (afterCreate env files outDir)).2 = .ok built ∧
        ov.field "Ipld" = some (.node built.ipld) ∧
        ov.field "CidMap" = some (.index built.cidMap) ∧
        ov.field "DataCid" = some (.str built.cid)) ∧
      os.field "Ipld" = none ∧ os.field "CidMap" = none ∧
      os.field "CarSize" ≠ none ∧ os.field "FileName" ≠ none ∧
      ov.field "CarSize" = none ∧ ov.field "FileName" = none := by
  obtain ⟨built, size, commCid, pieceSize, hw, hcm, rfl, _⟩ :=
    generateCar_println env files input parent tmpDir outDir pieceSizeInput qiniuConfPath
      true os hs
  obtain ⟨built1, size1, commCid1, pieceSize1, hw1, hcm1, rfl, _⟩ :=
    generateCar_println env files input parent tmpDir outDir pieceSizeInput qiniuConfPath
      false ov hv
  have hb := writePhase_built env files input parent tmpDir outDir built size hw
  rw [hw] at hw1
  rw [hcm] at hcm1
  simp only [Except.ok.injEq, Prod.mk.injEq] at hw1 hcm1
  obtain ⟨rfl, rfl⟩ := hw1
  obtain ⟨rfl, rfl⟩ := hcm1
  refine ⟨?_, ⟨built, hb, ?_, ?_, ?_⟩, ?_, ?_, ?_, ?_, ?_, ?_⟩
  · intro key hkey
    simp only [List.mem_cons, List.mem_singleton, List.not_mem_nil, or_false] at hkey
    rcases hkey with rfl | rfl | rfl <;>
      simp [makeOutput, Output.field, Output.fields, List.lookup]
  all_goals simp [makeOutput, Output.field, Output.fields, List.lookup]

/-- Witness of `generateCar_records` on `sampleEnv`. -/
theorem generateCar_records_witness :
    (Output.verbose ⟨⟨"root"⟩, "bafyroot", "baga6ea4seaqnatural", 128, ⟨"index"⟩⟩).field
        "PieceCid" =
      (Output.simple ⟨"bafyroot", "baga6ea4seaqnatural", 128, 3,
        "baga6ea4seaqnatural.car"⟩).field "PieceCid" :=
  ((generateCar_records sampleEnv noFiles sampleInput "data" "" "out" 0 ""
    (.simple ⟨"bafyroot", "baga6ea4seaqnatural", 128, 3, "baga6ea4seaqnatural.car"⟩)
    (.verbose ⟨⟨"root"⟩, "bafyroot", "baga6ea4seaqnatural", 128, ⟨"index"⟩⟩)
    (by decide) (by decide)).1 "PieceCid" (by decide)).1

/-- Claim C6 as stated fails on `sampleEnv`: the compact record of the job has the fields
`CarSize` and `FileName`, the verbose record of the same job has neither. -/
theorem generateCar_verbose_lacks_fields :
    Call.Println (.simple ⟨"bafyroot", "baga6ea4seaqnatural", 128, 3,
          "baga6ea4seaqnatural.car"⟩) ∈
        (generateCar sampleEnv noFiles sampleInput "data" "" "out" 0 "" true).1.log ∧
      Call.Println (.verbose ⟨⟨"root"⟩, "bafyroot", "baga6ea4seaqnatural", 128, ⟨"index"⟩⟩) ∈
        (generateCar sampleEnv noFiles sampleInput "data" "" "out" 0 "" false).1.log ∧
      (Output.simple ⟨"bafyroot", "baga6ea4seaqnatural", 128, 3,
        "baga6ea4seaqnatural.car"⟩).field "CarSize" = some (.int 3) ∧
      (Output.simple ⟨"bafyroot", "baga6ea4seaqnatural", 128, 3,
        "baga6ea4seaqnatural.car"⟩).field "FileName" =
          some (.str "baga6ea4seaqnatural.car") ∧
      (Output.verbose ⟨⟨"root"⟩, "bafyroot", "baga6ea4seaqnatural", 128,
        ⟨"index"⟩⟩).field "CarSize" = none ∧
      (Output.verbose ⟨⟨"root"⟩, "bafyroot", "baga6ea4seaqnatural", 128,
        ⟨"index"⟩⟩).field "FileName" = none := by
  refine ⟨?_, ?_, ?_, ?_, ?_, ?_⟩ <;> decide

theorem SchedInv.init (inputList : List Input) (parallel : Nat) :
    SchedInv inputList parallel (Sched.init parallel) where
  workers_length := by simp [Sched.init]
  sent_le := by simp [Sched.init]
  received_eq := by simp [Sched.init]
  finished_nodup := by simp [Sched.init]
  finished_received := by simp [Sched.init]
  busy_owns := by
    intro w i input h
    simp only [Sched.init, List.getElem?_replicate] at h
    split_ifs at h
    simp at h
  received_cases := by simp [Sched.init]
  closed_sent := by simp [Sched.init]
  returned_done := by simp [Sched.init]

/-- Two entries of the record of receives for the same manifest are the same entry. -/
theorem SchedInv.received_unique {inputList : List Input} {parallel : Nat} {s : Sched}
    (h : SchedInv inputList parallel s) {w1 w2 i : Nat}
    (h1 : (w1, i) ∈ s.received) (h2 : (w2, i) ∈ s.received) : w1 = w2 := by
  have hnd : (s.received.map Prod.snd).Nodup := by
    rw [h.received_eq]
    exact List.nodup_range _
  have := List.inj_on_of_nodup_map hnd h1 h2 rfl
  exact (Prod.mk.inj this).1

theorem SchedInv.received_lt {inputList : List Input} {parallel : Nat} {s : Sched}
    (h : SchedInv inputList parallel s) {w i : Nat} (h1 : (w, i) ∈ s.received) :
    i < s.sent := by
  have : i ∈ s.received.map Prod.snd := List.mem_map.mpr ⟨(w, i), h1, rfl⟩
  rw [h.received_eq] at this
  exact List.mem_range.mp this

theorem SchedInv.handoff {inputList : List Input} {parallel : Nat} {s : Sched}
    (h : SchedInv inputList parallel s) (w : Nat) (input : Input)
    (hclosed : s.closed = false) (hidle : s.workers[w]? = some Worker.idle)
    (hin : inputList[s.sent]? = some input) :
    SchedInv inputList parallel
      { s with
        sent := s.sent + 1
        workers := s.workers.set w (Worker.busy s.sent input)
        received := s.received ++ [(w, s.sent)] } where
  workers_length := by simp [h.workers_length]
  sent_le := by
    have := (List.getElem?_eq_some_iff.mp hin).1
    exact this
  received_eq := by simp [h.received_eq, List.range_succ]
  finished_nodup := h.finished_nodup
  finished_received := fun x hx => List.mem_append_left _ (h.finished_received x hx)
  busy_owns := by
    intro w1 i input1 hb
    simp only at hb ⊢
    by_cases hw : w = w1
    · subst hw
      have hlt : w < s.workers.length := by
        by_contra hge
        rw [List.getElem?_eq_none (by omega)] at hidle
        cases hidle
      rw [List.getElem?_set_self hlt] at hb
      simp only [Option.some.injEq, Worker.busy.injEq] at hb
      obtain ⟨rfl, rfl⟩ := hb
      refine ⟨by simp, ?_, hin⟩
      intro hmem
      obtain ⟨x, hx, hxi⟩ := List.mem_map.mp hmem
      have := h.received_lt (w := x.1) (i := s.sent)
        (by rw [← hxi]; exact h.finished_received x hx)
      omega
    · rw [List.getElem?_set_ne hw] at hb
      obtain ⟨g1, g2, g3⟩ := h.busy_owns w1 i input1 hb
      exact ⟨List.mem_append_left _ g1, g2, g3⟩
  received_cases := by
    intro w1 i hmem
    simp only [List.mem_append, List.mem_singleton, Prod.mk.injEq] at hmem
    simp only
    rcases hmem with hmem | ⟨rfl, rfl⟩
    · rcases h.received_cases w1 i hmem with hfin | ⟨input1, hb⟩
      · exact Or.inl hfin
      · right
        have hw : w ≠ w1 := by
          rintro rfl
          rw [hidle] at hb
          cases hb
        exact ⟨input1, by rw [List.getElem?_set_ne hw]; exact hb⟩
    · right
      have hlt : w1 < s.workers.length := by
        by_contra hge
        rw [List.getElem?_eq_none (by omega)] at hidle
        cases hidle
      exact ⟨input, by rw [List.getElem?_set_self hlt]⟩
  closed_sent := by
    intro hc
    simp only at hc
    rw [hclosed] at hc
    cases hc
  returned_done := by
    intro hr
    have := (h.returned_done hr).1
    rw [hclosed] at this
    cases this

theorem SchedInv.done {inputList : List Input} {parallel : Nat} {s : Sched}
    (h : SchedInv inputList parallel s) (w i : Nat) (input : Input)
    (hbusy : s.workers[w]? = some (Worker.busy i input)) :
    SchedInv inputList parallel
      { s with
        workers := s.workers.set w Worker.idle
        finished := s.finished ++ [(w, i)] } where
  workers_length := by simp [h.workers_length]
  sent_le := h.sent_le
  received_eq := h.received_eq
  finished_nodup := by
    have := (h.busy_owns w i input hbusy).2.1
    simp only [List.map_append, List.map_cons, List.map_nil]
    rw [List.nodup_append]
    refine ⟨h.finished_nodup, by simp, ?_⟩
    intro a ha hb
    simp only [List.mem_singleton] at hb
    subst hb
    exact this ha
  finished_received := by
    intro x hx
    simp only [List.mem_append, List.mem_singleton] at hx
    rcases hx with hx | rfl
    · exact h.finished_received x hx
    · exact (h.busy_owns w i input hbusy).1
  busy_owns := by
    intro w1 i1 input1 hb
    simp only at hb ⊢
    have hlt : w < s.workers.length := by
      by_contra hge
      rw [List.getElem?_eq_none (by omega)] at hbusy
      cases hbusy
    by_cases hw : w = w1
    · subst hw
      rw [List.getElem?_set_self hlt] at hb
      cases hb
    · rw [List.getElem?_set_ne hw] at hb
      obtain ⟨g1, g2, g3⟩ := h.busy_owns w1 i1 input1 hb
      refine ⟨g1, ?_, g3⟩
      simp only [List.map_append, List.map_cons, List.map_nil, List.mem_append,
        List.mem_singleton, not_or]
      refine ⟨g2, ?_⟩
      rintro rfl
      exact hw (h.received_unique (h.busy_owns w i1 input hbusy).1 g1)
  received_cases := by
    intro w1 i1 hmem
    simp only
    rcases h.received_cases w1 i1 hmem with hfin | ⟨input1, hb⟩
    · exact Or.inl (List.mem_append_left _ hfin)
    · by_cases hw : w = w1
      · subst hw
        rw [hbusy] at hb
        simp only [Option.some.injEq, Worker.busy.injEq] at hb
        left
        simp [hb.1]
      · exact Or.inr ⟨input1, by rw [List.getElem?_set_ne hw]; exact hb⟩
  closed_sent := h.closed_sent
  returned_done := by
    intro hr
    have hall := (h.returned_done hr).2
    have := hall _ (List.getElem?_mem hbusy)
    cases this

theorem SchedInv.seeClosed {inputList : List Input} {parallel : Nat} {s : Sched}
    (h : SchedInv inputList parallel s) (w : Nat)
    (hidle : s.workers[w]? = some Worker.idle) :
    SchedInv inputList parallel { s with workers := s.workers.set w Worker.exited } where
  workers_length := by simp [h.workers_length]
  sent_le := h.sent_le
  received_eq := h.received_eq
  finished_nodup := h.finished_nodup
  finished_received := h.finished_received
  busy_owns := by
    intro w1 i1 input1 hb
    simp only at hb ⊢
    have hlt : w < s.workers.length := by
      by_contra hge
      rw [List.getElem?_eq_none (by omega)] at hidle
      cases hidle
    by_cases hw : w = w1
    · subst hw
      rw [List.getElem?_set_self hlt] at hb
      cases hb
    · rw [List.getElem?_set_ne hw] at hb
      exact h.busy_owns w1 i1 input1 hb
  received_cases := by
    intro w1 i1 hmem
    simp only
    rcases h.received_cases w1 i1 hmem with hfin | ⟨input1, hb⟩
    · exact Or.inl hfin
    · have hw : w ≠ w1 := by
        rintro rfl
        rw [hidle] at hb
        cases hb
      exact Or.inr ⟨input1, by rw [List.getElem?_set_ne hw]; exact hb⟩
  closed_sent := h.closed_sent
  returned_done := by
    intro hr
    have hall := (h.returned_done hr).2
    have := hall _ (List.getElem?_mem hidle)
    cases this

/-- Every step of the scheduler preserves the invariant. -/
theorem SchedInv.step {inputList : List Input} {parallel : Nat} {s s1 : Sched}
    (h : SchedInv inputList parallel s) (a : Action) (hs : step inputList s a = some s1) :
    SchedInv inputList parallel s1 := by
  cases a with
  | handoff w =>
    simp only [GenerateCar.step] at hs
    split_ifs at hs with hc
    cases hin : inputList[s.sent]? with
    | none => simp [hin] at hs
    | some input =>
      simp only [hin, Option.some.injEq] at hs
      subst hs
      exact h.handoff w input hc.2.1 hc.2.2 hin
  | done w ok =>
    simp only [GenerateCar.step] at hs
    by_cases hf : s.fatal = false
    · rw [if_pos hf] at hs
      cases hb : s.workers[w]? with
      | none => simp [hb] at hs
      | some x =>
        cases x with
        | idle => simp [hb] at hs
        | exited => simp [hb] at hs
        | busy i input =>
          simp only [hb] at hs
          cases ok with
          | true =>
            simp only [if_true, Option.some.injEq] at hs
            subst hs
            exact h.done w i input hb
          | false =>
            simp only [Bool.false_eq_true, if_false, Option.some.injEq] at hs
            subst hs
            exact ⟨h.workers_length, h.sent_le, h.received_eq, h.finished_nodup,
              h.finished_received, h.busy_owns, h.received_cases, h.closed_sent,
              h.returned_done⟩
    · rw [if_neg hf] at hs
      cases hs
  | close =>
    simp only [GenerateCar.step] at hs
    split_ifs at hs with hc
    simp only [Option.some.injEq] at hs
    subst hs
    refine ⟨h.workers_length, h.sent_le, h.received_eq, h.finished_nodup,
      h.finished_received, h.busy_owns, h.received_cases, fun _ => hc.2.2, ?_⟩
    intro hr
    have := (h.returned_done hr).1
    rw [hc.2.1] at this
    cases this
  | seeClosed w =>
    simp only [GenerateCar.step] at hs
    split_ifs at hs with hc
    simp only [Option.some.injEq] at hs
    subst hs
    exact h.seeClosed w hc.2.2
  | ret =>
    simp only [GenerateCar.step] at hs
    split_ifs at hs with hc
    simp only [Option.some.injEq] at hs
    subst hs
    refine ⟨h.workers_length, h.sent_le, h.received_eq, h.finished_nodup,
      h.finished_received, h.busy_owns, h.received_cases, h.closed_sent, ?_⟩
    intro _
    refine ⟨hc.2.1, ?_⟩
    intro x hx
    have := List.all_eq_true.mp hc.2.2.2 x hx
    simpa using this

theorem SchedInv.run {inputList : List Input} {parallel : Nat} :
    ∀ (acts : List Action) (s s1 : Sched), SchedInv inputList parallel s →
      runSched inputList s acts = some s1 → SchedInv inputList parallel s1 := by
  intro acts
  induction acts with
  | nil =>
    intro s s1 h hr
    simp only [runSched, Option.some.injEq] at hr
    subst hr
    exact h
  | cons a rest ih =>
    intro s s1 h hr
    simp only [runSched] at hr
    cases hst : GenerateCar.step inputList s a with
    | none => simp [hst] at hr
    | some s2 =>
      simp only [hst] at hr
      exact ih s2 s1 (h.step a hst) hr

/-- Every reachable state of the scheduler satisfies the invariant. -/
theorem Reachable.inv {inputList : List Input} {parallel : Nat} {s : Sched}
    (h : Reachable inputList parallel s) : SchedInv inputList parallel s := by
  obtain ⟨acts, hacts⟩ := h
  exact SchedInv.run acts _ s (SchedInv.init inputList parallel) hacts

/-- Claim C10. In every state the scheduler can reach, for any number of workers and any list of
manifests: the manifests received so far are those of the indices below the producer's, in list
order, so each has been received at most once and by one worker only; a worker running
`generateCar` holds the manifest of the index it received, that call is not yet finished, and no
other worker is running on the same index; a completed call is by the worker that received the
manifest, and no manifest has two completed calls. When the `Action` has returned, the completed
calls are, up to order, exactly one per manifest of the list. -/
theorem scheduler_exclusive (inputList : List Input) (parallel : Nat) (s : Sched)
    (hr : Reachable inputList parallel s) :
    s.received.map Prod.snd = List.range s.sent ∧
      (∀ w1 w2 i, (w1, i) ∈ s.received → (w2, i) ∈ s.received → w1 = w2) ∧
      (∀ w i input, s.workers[w]? = some (Worker.busy i input) →
        inputList[i]? = some input ∧ (w, i) ∈ s.received ∧ i ∉ s.finished.map Prod.snd ∧
        ∀ w2 input2, s.workers[w2]? = some (Worker.busy i input2) → w2 = w) ∧
      (s.finished.map Prod.snd).Nodup ∧
      (∀ x ∈ s.finished, x ∈ s.received) ∧
      (s.returned = true →
        (s.finished.map Prod.snd).Perm (List.range inputList.length)) := by
  have h := hr.inv
  refine ⟨h.received_eq, fun w1 w2 i h1 h2 => h.received_unique h1 h2, ?_, h.finished_nodup,
    h.finished_received, ?_⟩
  · intro w i input hb
    obtain ⟨g1, g2, g3⟩ := h.busy_owns w i input hb
    refine ⟨g3, g1, g2, ?_⟩
    intro w2 input2 hb2
    exact h.received_unique (h.busy_owns w2 i input2 hb2).1 g1
  · intro hret
    obtain ⟨hclosed, hall⟩ := h.returned_done hret
    have hsent := h.closed_sent hclosed
    rw [← hsent, ← h.received_eq]
    have hnd : (s.received.map Prod.snd).Nodup := by
      rw [h.received_eq]
      exact List.nodup_range _
    rw [List.perm_ext_iff_of_nodup h.finished_nodup hnd]
    intro i
    constructor
    · intro hi
      obtain ⟨x, hx, rfl⟩ := List.mem_map.mp hi
      exact List.mem_map.mpr ⟨x, h.finished_received x hx, rfl⟩
    · intro hi
      obtain ⟨x, hx, rfl⟩ := List.mem_map.mp hi
      obtain ⟨w, j⟩ := x
      rcases h.received_cases w j hx with hfin | ⟨input, hb⟩
      · exact List.mem_map.mpr ⟨(w, j), hfin, rfl⟩
      · have := hall _ (List.getElem?_mem hb)
        cases this

/-- Witness of claim C10: the run `sampleRun` of two workers over the three manifests of
`sampleJobs` ends with the `Action` returned and one completed call per manifest. -/
theorem scheduler_exclusive_witness :
    ([(1, 1), (0, 0), (1, 2)].map Prod.snd).Perm (List.range sampleJobs.length) :=
  (scheduler_exclusive sampleJobs 2
    { sent := 3, closed := true, workers := [.exited, .exited], fatal := false,
      returned := true, received := [(0, 0), (1, 1), (1, 2)],
      finished := [(1, 1), (0, 0), (1, 2)] }
    ⟨sampleRun, by decide⟩).2.2.2.2.2 rfl

end GenerateCar
